import Mathlib

/-! # go-agent-endpoint: priority chains, method table and connection server

A shallow embedding of `endpoint/authenticator.go`, `endpoint/handler.go` and
`endpoint/server.go`.

* A Go `int` used only for comparison (`priority`) or as an enumeration
  (`HandleCode`) is an `Int`; a byte of a stream is a `Nat`.
* A capability (`Authenticator`, `Handler`) is an interface value whose method
  may read and write anything it can reach (the responder, the encoder, its own
  fields).  It is a function from the call arguments and the state of that
  world to the returned code and the new state of the world.
* `Iterate` returns, next to its code, the calls it made (`Run.calls`), so that
  the order of invocation can be stated.
* `sort.Sort` belongs to the Go standard library and its algorithm has changed
  between Go releases.  It is a parameter of `Push`, constrained by what its
  documentation promises (`sort.Sorts`).  The function `insertionSort` of the
  package, which every release runs on short slices, is embedded as an
  instance.
* `bufio.Reader` belongs to the Go standard library too.  Its methods `Peek`,
  `ReadByte` and `ReadSlice` are modelled on a connection that delivers
  finitely many bytes and then fails every read.
* The goroutines of the server are interleaved as atomic events (`Event`) on
  the state `Server`; `serveConn` is a function of the bytes of its connection.
-/

namespace Endpoint

/-! ## handler.go: HandleCode -/

/-- The Go type `HandleCode`, declared as `type HandleCode int`. -/
abbrev HandleCode := Int

/-- The constant `OK = HandleCode(0x0)`. -/
def OK : HandleCode := 0x0

/-- The constant `FAIL = HandleCode(0x1)`. -/
def FAIL : HandleCode := 0x1

/-- A capability method: `Authenticate(agentName, agentID, token, responder,
connCtx) HandleCode` or `Handle(*request, *json.Encoder, ConnContext)
HandleCode`.  `A` bundles the call arguments, `σ` is the state the method can
read and write. -/
abbrev Capability (A σ : Type) := A → σ → HandleCode × σ

/-- The interface `Authenticator`. -/
abbrev Authenticator (A σ : Type) := Capability A σ

/-- The interface `Handler`. -/
abbrev Handler (A σ : Type) := Capability A σ

/-- What one run of `Iterate` did: the code it returned, the state it left,
and the calls it made, oldest first, each with the code that call returned. -/
structure Run (ι σ : Type) where
  ret : HandleCode
  state : σ
  calls : List (ι × HandleCode)

/-! ## authenticator.go -/

/-- The struct `authenticatorListItem`. -/
structure authenticatorListItem (A σ : Type) where
  authenticator : Authenticator A σ
  priority : Int

/-- The function `constructAuthenticatorListItem`. -/
def constructAuthenticatorListItem {A σ : Type} (authenticator : Authenticator A σ)
    (priority : Int) : authenticatorListItem A σ :=
  { authenticator := authenticator, priority := priority }

/-- The slice type `authenticatorList`. -/
abbrev authenticatorList (A σ : Type) := List (authenticatorListItem A σ)

/-- The function `newAuthenticatorList`: an empty slice. -/
def newAuthenticatorList {A σ : Type} : authenticatorList A σ := []

/-- The method `authenticatorList.Len`. -/
def authenticatorList.Len {A σ : Type} (l : authenticatorList A σ) : Nat := l.length

/-- The body of the `for _, item := range al` loop of
`authenticatorList.Iterate`: `ret` is the current value of the variable `ret`,
`s` the current state and `calls` the calls made so far. -/
def authenticatorList.iterateLoop {A σ : Type} (args : A) :
    List (authenticatorListItem A σ) → HandleCode → σ →
      List (authenticatorListItem A σ × HandleCode) → Run (authenticatorListItem A σ) σ
  | [], ret, s, calls => { ret := ret, state := s, calls := calls }
  | item :: rest, _, s, calls =>
    let r := item.authenticator args s
    if OK = r.1 ∨ FAIL = r.1 then
      { ret := r.1, state := r.2, calls := calls ++ [(item, r.1)] }
    else
      authenticatorList.iterateLoop args rest r.1 r.2 (calls ++ [(item, r.1)])

/-- The method `authenticatorList.Iterate`.  The constant `DECLINED` is declared
in a file that is not among the sources, so it is a parameter. -/
def authenticatorList.Iterate {A σ : Type} (DECLINED : HandleCode)
    (l : authenticatorList A σ) (args : A) (s : σ) : Run (authenticatorListItem A σ) σ :=
  authenticatorList.iterateLoop args l DECLINED s []

/-! ## handler.go -/

/-- The struct `handlerListItem`. -/
structure handlerListItem (A σ : Type) where
  handler : Handler A σ
  priority : Int

/-- The function `constructHandlerListItem`. -/
def constructHandlerListItem {A σ : Type} (handler : Handler A σ) (priority : Int) :
    handlerListItem A σ :=
  { handler := handler, priority := priority }

/-- The slice type `handlerList`. -/
abbrev handlerList (A σ : Type) := List (handlerListItem A σ)

/-- The function `newHandlerList`: an empty slice. -/
def newHandlerList {A σ : Type} : handlerList A σ := []

/-- The method `handlerList.Len`. -/
def handlerList.Len {A σ : Type} (l : handlerList A σ) : Nat := l.length

/-- The body of the `for _, item := range hl` loop of `handlerList.Iterate`. -/
def handlerList.iterateLoop {A σ : Type} (args : A) :
    List (handlerListItem A σ) → HandleCode → σ →
      List (handlerListItem A σ × HandleCode) → Run (handlerListItem A σ) σ
  | [], ret, s, calls => { ret := ret, state := s, calls := calls }
  | item :: rest, _, s, calls =>
    let r := item.handler args s
    if OK = r.1 then
      { ret := r.1, state := r.2, calls := calls ++ [(item, r.1)] }
    else
      handlerList.iterateLoop args rest r.1 r.2 (calls ++ [(item, r.1)])

/-- The method `handlerList.Iterate`. -/
def handlerList.Iterate {A σ : Type} (l : handlerList A σ) (args : A) (s : σ) :
    Run (handlerListItem A σ) σ :=
  handlerList.iterateLoop args l FAIL s []

/-! ## The package sort of the Go standard library -/

namespace sort

/-- The interface `sort.Interface`: what `sort.Sort` may ask of the data `D` it
sorts.  `Less d i j` and `Swap d i j` take the indices of two elements. -/
structure Interface (D : Type) where
  Len : D → Nat
  Less : D → Nat → Nat → Bool
  Swap : D → Nat → Nat → D

/-- The data `d'` is what a finite number of `Swap` calls, each on two indices
below `Len`, make of the data `d`. -/
inductive Swaps {D : Type} (data : Interface D) : D → D → Prop
  | refl (d : D) : Swaps data d d
  | step (d : D) (i j : Nat) (d' : D) :
      i < data.Len d → j < data.Len d → Swaps data (data.Swap d i j) d' → Swaps data d d'

/-- The data is in ascending order as determined by `Less`: no element is less
than an element before it. -/
def Ascending {D : Type} (data : Interface D) (d : D) : Prop :=
  ∀ i j, i < j → j < data.Len d → data.Less d j i = false

/-- What the documentation of `sort.Sort` promises of a function `sortSort` on
the data type behind `data`: it changes the data by calls of `Swap` only and
leaves it in ascending order as determined by `Less`.  The documentation adds
that the sort is not guaranteed to be stable, so nothing is promised about the
order of elements neither of which is less than the other. -/
def Sorts {D : Type} (data : Interface D) (sortSort : Interface D → D → D) : Prop :=
  ∀ d, Swaps data d (sortSort data d) ∧ Ascending data (sortSort data d)

/-- The inner loop of `insertionSort`,
`for j := i; j > a && data.Less(j, j-1); j-- { data.Swap(j, j-1) }`,
started at `j = a + k`. -/
def insertionSort.inner {D : Type} (data : Interface D) (a : Nat) : Nat → D → D
  | 0, d => d
  | k + 1, d =>
    if data.Less d (a + k + 1) (a + k) then
      insertionSort.inner data a k (data.Swap d (a + k + 1) (a + k))
    else d

/-- The function `insertionSort(data, a, b)` of the package: the outer loop
`for i := a + 1; i < b; i++` around the inner loop. -/
def insertionSort {D : Type} (data : Interface D) (a b : Nat) (d : D) : D :=
  (List.range' (a + 1) (b - (a + 1))).foldl
    (fun d i => insertionSort.inner data a (i - a) d) d

/-- The pass `for i := a + 6; i < b; i++ { if data.Less(i, i-6) { data.Swap(i, i-6) } }`
that `quickSort` of Go 1.6 to 1.18 runs before `insertionSort` on a range of at
most 12 elements. -/
def shellPass {D : Type} (data : Interface D) (a b : Nat) (d : D) : D :=
  (List.range' (a + 6) (b - (a + 6))).foldl
    (fun d i => if data.Less d i (i - 6) then data.Swap d i (i - 6) else d) d

/-- A `sort.Sort` that is `insertionSort(data, 0, n)`: what the `Sort` of Go
1.19 and later does on at most 12 elements. -/
def insertionSortAll {D : Type} (data : Interface D) (d : D) : D :=
  insertionSort data 0 (data.Len d) d

/-- A `sort.Sort` that is the pass with gap 6 followed by
`insertionSort(data, 0, n)`: what the `Sort` of Go 1.6 to 1.18 does on at most
12 elements. -/
def shellInsertionSort {D : Type} (data : Interface D) (d : D) : D :=
  if 1 < data.Len d then
    insertionSort data 0 (data.Len d) (shellPass data 0 (data.Len d) d)
  else d

end sort

/-- The assignment `l[i], l[j] = l[j], l[i]` on a slice; an index out of range
is a run-time panic in Go, which `sort.Sort` never causes, and leaves the list
as it is here. -/
def swapAt {α : Type} (l : List α) (i j : Nat) : List α :=
  match l[i]?, l[j]? with
  | some x, some y => (l.set i y).set j x
  | _, _ => l

/-- The method `authenticatorList.Less`: `al[i].priority < al[j].priority`; an
index out of range is a run-time panic in Go and answers false here. -/
def authenticatorList.Less {A σ : Type} (l : authenticatorList A σ) (i j : Nat) : Bool :=
  match l[i]?, l[j]? with
  | some x, some y => decide (x.priority < y.priority)
  | _, _ => false

/-- The method `authenticatorList.Swap`: `al[i], al[j] = al[j], al[i]`. -/
def authenticatorList.Swap {A σ : Type} (l : authenticatorList A σ) (i j : Nat) :
    authenticatorList A σ :=
  swapAt l i j

/-- The type `*authenticatorList` as a `sort.Interface`, by its three methods. -/
def authenticatorList.sortInterface {A σ : Type} : sort.Interface (authenticatorList A σ) :=
  { Len := authenticatorList.Len, Less := authenticatorList.Less,
    Swap := authenticatorList.Swap }

/-- The method `authenticatorList.Push`: `*l = append(*l, x)`, then
`sort.Sort(l)`. -/
def authenticatorList.Push {A σ : Type}
    (sortSort : sort.Interface (authenticatorList A σ) → authenticatorList A σ →
      authenticatorList A σ)
    (l : authenticatorList A σ) (x : authenticatorListItem A σ) : authenticatorList A σ :=
  sortSort authenticatorList.sortInterface (l ++ [x])

/-- The list after `Push(x)` for each `x` of `xs` in turn, on the list of
`newAuthenticatorList()`. -/
def authenticatorList.pushAll {A σ : Type}
    (sortSort : sort.Interface (authenticatorList A σ) → authenticatorList A σ →
      authenticatorList A σ)
    (xs : List (authenticatorListItem A σ)) : authenticatorList A σ :=
  xs.foldl (authenticatorList.Push sortSort) newAuthenticatorList

/-- The method `handlerList.Less`: `hl[i].priority > hl[j].priority`; an index
out of range is a run-time panic in Go and answers false here. -/
def handlerList.Less {A σ : Type} (l : handlerList A σ) (i j : Nat) : Bool :=
  match l[i]?, l[j]? with
  | some x, some y => decide (x.priority > y.priority)
  | _, _ => false

/-- The method `handlerList.Swap`: `hl[i], hl[j] = hl[j], hl[i]`. -/
def handlerList.Swap {A σ : Type} (l : handlerList A σ) (i j : Nat) : handlerList A σ :=
  swapAt l i j

/-- The type `*handlerList` as a `sort.Interface`, by its three methods. -/
def handlerList.sortInterface {A σ : Type} : sort.Interface (handlerList A σ) :=
  { Len := handlerList.Len, Less := handlerList.Less, Swap := handlerList.Swap }

/-- The method `handlerList.Push`: `*hl = append(*hl, x)`, then `sort.Sort(hl)`. -/
def handlerList.Push {A σ : Type}
    (sortSort : sort.Interface (handlerList A σ) → handlerList A σ → handlerList A σ)
    (l : handlerList A σ) (x : handlerListItem A σ) : handlerList A σ :=
  sortSort handlerList.sortInterface (l ++ [x])

/-- The list after `Push(x)` for each `x` of `xs` in turn, on the list of
`newHandlerList()`. -/
def handlerList.pushAll {A σ : Type}
    (sortSort : sort.Interface (handlerList A σ) → handlerList A σ → handlerList A σ)
    (xs : List (handlerListItem A σ)) : handlerList A σ :=
  xs.foldl (handlerList.Push sortSort) newHandlerList

/-! ## Sorting a list by a comparison of its elements -/

/-- A list as a `sort.Interface` when `Less` compares the two elements by
`less`; both chain types are of this shape. -/
def listInterface {α : Type} (less : α → α → Bool) : sort.Interface (List α) :=
  { Len := List.length
    Less := fun l i j =>
      match l[i]?, l[j]? with
      | some x, some y => less x y
      | _, _ => false
    Swap := swapAt }

/-- The inner loop of `insertionSort` seen from the element `x` that moves:
`before` holds the elements to the left of `x`, nearest first, and the result
the same elements with `x` among them, nearest to the right end first. -/
def slideLeft {α : Type} (less : α → α → Bool) (x : α) : List α → List α
  | [] => [x]
  | p :: ps => if less x p then p :: slideLeft less x ps else x :: p :: ps

/-! ## server.go -/

/-- The error values `ServerAlreadyStarted` and `DuplicateMethod` of server.go;
the error `nil` is `none` of `Option BindError`. -/
inductive BindError where
  | ServerAlreadyStarted
  | DuplicateMethod
  deriving DecidableEq, Repr

/-- Modelled from the spec: the type `endpoint` is declared in a file that is
not among the sources.  The spec makes it a mapping from a method name (a
string) to exactly one handler, and server.go uses it as a Go map: it makes it
with `make(endpoint)`, indexes it by a method name and stores handlers in it.
`H` is the type of the handlers stored. -/
abbrev endpoint (H : Type) := String → Option H

/-- The map assignment `ep[method] = handler`. -/
def endpoint.set {H : Type} (ep : endpoint H) (method : String) (handler : H) : endpoint H :=
  fun m => if m = method then some handler else ep m

/-- Where the goroutine of the accept loop stands: the body of `once.Do` has
not begun (`idle`); it is about to evaluate `for s.running` and the `select`
(`test`); it is inside `s.ln.Accept()` (`accept`); `Accept` has returned a
connection and `s.wg.Add(1)` is next (`accepted`); `s.wg.Add(1)` is done and
`go s.serveConn(conn, s.wg)` is next (`counted`); the loop has ended
(`exited`). -/
inductive LoopState where
  | idle
  | test
  | accept
  | accepted
  | counted
  | exited
  deriving DecidableEq, Repr

/-- Where the call of `Destroy` stands: not called; `s.stop <- 1` done;
`s.ln.Close()` done; `s.wg.Wait()` done and the call returned. -/
inductive DestroyState where
  | notCalled
  | sent
  | closed
  | returned
  deriving DecidableEq, Repr

/-- The struct `Server`, with what the lifecycle functions read and write:
`ep`, `stop` (the number of values waiting in the channel of capacity 1), `wg`
(the counter of the WaitGroup), `once` (whether the `sync.Once` has fired),
`running`, and `lnClosed` for the listener `ln`.  `starting`, `loop` and
`destroy` tell where the goroutines of `Start` and the call of `Destroy` stand.
Three counters record what has happened: `loops`, how many times the body of
`once.Do` has begun; `conns`, how many connections `Accept` has returned;
`tasks`, how many goroutines of `serveConn` are in flight.
The fields `httpHandler` and `agents` are not used by these functions. -/
structure Server (H : Type) where
  ep : endpoint H
  lnClosed : Bool
  stop : Nat
  wg : Nat
  once : Bool
  running : Bool
  starting : Nat
  loop : LoopState
  destroy : DestroyState
  loops : Nat
  conns : Nat
  tasks : Nat

/-- The method `Server.bind`: the two built-in entries.  The methods
`handleHandshakeHello` and `handleHeartbeat` are declared in a file that is not
among the sources, so they are parameters. -/
def Server.bind {H : Type} (handleHandshakeHello handleHeartbeat : H) (s : Server H) :
    Server H :=
  { s with
    ep := (s.ep.set "handshake.hello" handleHandshakeHello).set "heartbeat.post"
      handleHeartbeat }

/-- The function `NewServer`: an empty table, a new WaitGroup, a channel
`stop` of capacity 1 with nothing in it, a listener, then `server.bind()`. -/
def NewServer {H : Type} (handleHandshakeHello handleHeartbeat : H) : Server H :=
  Server.bind handleHandshakeHello handleHeartbeat
    { ep := fun _ => none, lnClosed := false, stop := 0, wg := 0, once := false,
      running := false, starting := 0, loop := LoopState.idle,
      destroy := DestroyState.notCalled, loops := 0, conns := 0, tasks := 0 }

/-- The method `Server.Bind`: the error returned and the server afterwards. -/
def Server.Bind {H : Type} (s : Server H) (method : String) (handler : H) :
    Option BindError × Server H :=
  if s.running then
    (some BindError.ServerAlreadyStarted, s)
  else if (s.ep method).isSome then
    (some BindError.DuplicateMethod, s)
  else
    (none, { s with ep := s.ep.set method handler })

/-- The call `Start()`: the statement `go s.once.Do(...)` starts one more
goroutine and returns. -/
def Server.Start {H : Type} (s : Server H) : Server H :=
  { s with starting := s.starting + 1 }

/-- One atomic move of the server, the goroutines of `Start`, the call of
`Destroy` or a caller of `Bind`. -/
inductive Event (H : Type) where
  /-- a call of `Start()` -/
  | Start
  /-- a goroutine of `Start` enters `s.once.Do`: the first one sets
  `s.running = true` and begins the loop, a later one never runs the body -/
  | onceDo
  /-- the loop evaluates `for s.running` and the `select`: it receives from
  `s.stop` and sets `s.running = false`, or takes the default case and calls
  `s.ln.Accept()`; with `s.running` false the loop ends -/
  | loopTest
  /-- the call `s.ln.Accept()` returns, with a connection (`true`) or an error;
  a listener that is closed returns no connection -/
  | acceptReturn (ok : Bool)
  /-- the statement `s.wg.Add(1)` of the loop, after a connection -/
  | wgAdd
  /-- the statement `go s.serveConn(conn, s.wg)` of the loop -/
  | spawn
  /-- a goroutine of `serveConn` returns: the deferred `wg.Done()` -/
  | connDone
  /-- the statement `s.stop <- 1` of `Destroy` -/
  | destroySend
  /-- the statement `s.ln.Close()` of `Destroy` -/
  | destroyClose
  /-- the statement `s.wg.Wait()` of `Destroy` returns -/
  | destroyWait
  /-- a call of `Bind(method, handler)` -/
  | Bind (method : String) (handler : H)

/-- The server after an event, `none` when the event cannot happen in the
state `s` (the goroutine concerned is not there, or it is blocked). -/
def Server.step {H : Type} (s : Server H) : Event H → Option (Server H)
  | Event.Start => some s.Start
  | Event.onceDo =>
    if s.starting = 0 then none
    else if s.once then some { s with starting := s.starting - 1 }
    else some { s with starting := s.starting - 1, once := true, running := true,
                       loop := LoopState.test, loops := s.loops + 1 }
  | Event.loopTest =>
    if s.loop ≠ LoopState.test then none
    else if s.running then
      if 0 < s.stop then some { s with stop := s.stop - 1, running := false }
      else some { s with loop := LoopState.accept }
    else some { s with loop := LoopState.exited }
  | Event.acceptReturn ok =>
    if s.loop ≠ LoopState.accept then none
    else if ok then
      if s.lnClosed then none
      else some { s with loop := LoopState.accepted, conns := s.conns + 1 }
    else some { s with loop := LoopState.test }
  | Event.wgAdd =>
    if s.loop ≠ LoopState.accepted then none
    else some { s with wg := s.wg + 1, loop := LoopState.counted }
  | Event.spawn =>
    if s.loop ≠ LoopState.counted then none
    else some { s with tasks := s.tasks + 1, loop := LoopState.test }
  | Event.connDone =>
    if s.tasks = 0 then none else some { s with tasks := s.tasks - 1, wg := s.wg - 1 }
  | Event.destroySend =>
    if s.destroy = DestroyState.notCalled ∧ s.stop = 0 then
      some { s with stop := s.stop + 1, destroy := DestroyState.sent }
    else none
  | Event.destroyClose =>
    if s.destroy = DestroyState.sent then
      some { s with lnClosed := true, destroy := DestroyState.closed }
    else none
  | Event.destroyWait =>
    if s.destroy = DestroyState.closed ∧ s.wg = 0 then
      some { s with destroy := DestroyState.returned }
    else none
  | Event.Bind method handler => some (s.Bind method handler).2

/-- The server after a sequence of events, `none` when one of them cannot
happen. -/
def Server.run {H : Type} (s : Server H) : List (Event H) → Option (Server H)
  | [] => some s
  | e :: es => (s.step e).bind (fun s' => Server.run s' es)

/-- What holds of a server in every state it can reach: the body of `once.Do`
has begun once when the `sync.Once` has fired and never otherwise; the loop is
idle until then; and the counter of the WaitGroup is the number of `serveConn`
goroutines in flight, plus one between `s.wg.Add(1)` and the `go` statement. -/
def Server.Inv {H : Type} (s : Server H) : Prop :=
  s.loops = (if s.once then 1 else 0) ∧
  (s.once = false → s.loop = LoopState.idle) ∧
  s.wg = s.tasks + (if s.loop = LoopState.counted then 1 else 0)

/-- Whether an event is the statement `s.stop <- 1` of `Destroy`. -/
def Event.isDestroySend {H : Type} : Event H → Bool
  | Event.destroySend => true
  | _ => false

/-- The server after the calls `Bind(method, handler)` for each pair of
`binds` in turn, whatever each call returns. -/
def Server.bindAll {H : Type} (s : Server H) : List (String × H) → Server H
  | [] => s
  | b :: binds => Server.bindAll (s.Bind b.1 b.2).2 binds

/-! ## The package bufio of the Go standard library -/

namespace bufio

/-- The constant `defaultBufSize = 4096`, the size of the buffer of a reader
made by `NewReader`. -/
def defaultBufSize : Nat := 4096

/-- A `*bufio.Reader` on a connection that delivers finitely many bytes and
then fails every read, with `io.EOF` or another error.  `unread` holds the bytes
not consumed yet, those in the buffer and those still in the connection. -/
structure Reader where
  unread : List Nat
  deriving DecidableEq, Repr

/-- The function `NewReader(rd)`, on the bytes the connection delivers. -/
def NewReader (rd : List Nat) : Reader := { unread := rd }

/-- The method `Peek(n)`: the next `n` bytes, none of them consumed, and
whether the error is not nil.  With fewer than `n` bytes left it returns what is
left and the error of the read; with `n` above the size of the buffer, what the
buffer holds and `ErrBufferFull`. -/
def Reader.Peek (b : Reader) (n : Nat) : List Nat × Bool :=
  if defaultBufSize < n then (b.unread.take defaultBufSize, true)
  else if b.unread.length < n then (b.unread, true)
  else (b.unread.take n, false)

/-- The method `ReadByte()`: the next byte, consumed, or an error. -/
def Reader.ReadByte (b : Reader) : Option Nat × Reader :=
  match b.unread with
  | [] => (none, b)
  | c :: rest => (some c, { unread := rest })

/-- The method `ReadSlice(delim)`: it consumes up to and including the first
`delim` found in the buffer.  When the input ends before a `delim`, it consumes
all of it and returns the error of the read; when the buffer fills without a
`delim`, it consumes the full buffer and returns `ErrBufferFull`.  The result is
the slice returned, whether the error is not nil, and the reader afterwards. -/
def Reader.ReadSlice (b : Reader) (delim : Nat) : (List Nat × Bool) × Reader :=
  let window := b.unread.take defaultBufSize
  let line := window.takeWhile (fun c => c != delim)
  if line.length < window.length then
    ((b.unread.take (line.length + 1), false), { unread := b.unread.drop (line.length + 1) })
  else
    ((window, true), { unread := b.unread.drop window.length })

end bufio

/-! ## server.go: serveConn -/

/-- The bytes of `[]byte("PROXY ")`. -/
def PROXY : List Nat := [80, 82, 79, 88, 89, 32]

/-- The method `Server.consumePROXY`: whether the error returned is not nil,
and the reader afterwards.  The byte 10 is the newline. -/
def Server.consumePROXY (reader : bufio.Reader) : Bool × bufio.Reader :=
  let word := reader.Peek 6
  if word.2 then (true, reader)
  else if word.1 = PROXY then (false, (reader.ReadSlice 10).2)
  else (false, reader)

/-- The test of the loop of `serveConn` on the byte `first[0]`:
it is a space, a carriage return, a line feed or a horizontal tab. -/
def isSpaceByte (c : Nat) : Bool := c == 32 || c == 13 || c == 10 || c == 9

/-- How the loop of `serveConn` ends: the test fails, with the reader and the
values of `first` and of `err != nil` at that point; or `first[0]` is evaluated
on an empty `first`, a run-time panic (index out of range). -/
inductive SkipResult where
  | exit (reader : bufio.Reader) (first : List Nat) (err : Bool)
  | panicked
  deriving DecidableEq, Repr

/-- The loop
`for first[0] == ' ' || first[0] == '\r' || first[0] == '\n' || first[0] == '\t'`
of `serveConn`, whose body is `reader.ReadByte()` and
`first, err = reader.Peek(16)`; `none` when the fuel runs out before the loop
ends. -/
def Server.serveConn.skipLoop : Nat → bufio.Reader → List Nat → Bool → Option SkipResult
  | 0, _, _, _ => none
  | fuel + 1, reader, first, err =>
    match first with
    | [] => some SkipResult.panicked
    | c :: _ =>
      if isSpaceByte c then
        Server.serveConn.skipLoop fuel reader.ReadByte.2
          (reader.ReadByte.2.Peek 16).1 (reader.ReadByte.2.Peek 16).2
      else some (SkipResult.exit reader first err)

/-- What `serveConn` does with a connection: it hands the reader to
`s.ep.ServeConn`; it logs `first` and returns; it returns on an error; or it
panics.  In the last three the connection is closed with nothing written to
it. -/
inductive ConnOutcome where
  | served (reader : bufio.Reader)
  | logged (first : List Nat)
  | aborted
  | panicked
  deriving DecidableEq, Repr

/-- The method `Server.serveConn` on a connection that delivers the bytes
`conn`; `none` when the fuel of the loop runs out, which
`Server_serveConn_returns` excludes.  The byte 123 is the opening brace. -/
def Server.serveConn (conn : List Nat) : Option ConnOutcome :=
  let reader := bufio.NewReader conn
  let r := Server.consumePROXY reader
  if r.1 then some ConnOutcome.aborted
  else
    match Server.serveConn.skipLoop (r.2.unread.length + 1) r.2 (r.2.Peek 16).1
        (r.2.Peek 16).2 with
    | none => none
    | some SkipResult.panicked => some ConnOutcome.panicked
    | some (SkipResult.exit reader first err) =>
      if err then some ConnOutcome.aborted
      else
        match first with
        | [] => some ConnOutcome.panicked
        | c :: _ =>
          if c = 123 then some (ConnOutcome.served reader)
          else some (ConnOutcome.logged first)

/-- The loop of `serveConn` read off the unread bytes: it consumes the leading
run of space bytes and panics when the bytes end there. -/
def skipSpaces : List Nat → SkipResult
  | [] => SkipResult.panicked
  | c :: rest =>
    if isSpaceByte c then skipSpaces rest
    else SkipResult.exit { unread := c :: rest }
      (bufio.Reader.Peek { unread := c :: rest } 16).1
      (bufio.Reader.Peek { unread := c :: rest } 16).2

/-! ## What each capability of a chain returns, called in chain order -/

/-- Every capability of `l` called once, front to back, each on the state the
one before left: the calls with the codes they return, and the final state.
`call` selects the method of an item. -/
def callAll {ι A σ : Type} (call : ι → Capability A σ) (args : A) :
    List ι → σ → List (ι × HandleCode) × σ
  | [], s => ([], s)
  | item :: rest, s =>
    let r := call item args s
    let t := callAll call args rest r.2
    ((item, r.1) :: t.1, t.2)

/-- The stopping test of `authenticatorList.Iterate`: `OK == ret || FAIL == ret`. -/
def isOKorFAIL (c : HandleCode) : Bool := decide (OK = c ∨ FAIL = c)

/-- The stopping test of `handlerList.Iterate`: `OK == ret`. -/
def isOK (c : HandleCode) : Bool := decide (OK = c)

/-- The shape the two `Iterate` loops share, with the stopping test and the
method as parameters; the lemmas about the loops are proved once, on it. -/
def chainLoop {ι A σ : Type} (stop : HandleCode → Bool) (call : ι → Capability A σ)
    (args : A) : List ι → HandleCode → σ → List (ι × HandleCode) → Run ι σ
  | [], ret, s, calls => { ret := ret, state := s, calls := calls }
  | item :: rest, _, s, calls =>
    let r := call item args s
    if stop r.1 then
      { ret := r.1, state := r.2, calls := calls ++ [(item, r.1)] }
    else
      chainLoop stop call args rest r.1 r.2 (calls ++ [(item, r.1)])

/-! ## Concrete capabilities for the examples -/

/-- A capability that returns the code `c` whatever it is called with and
leaves the state alone. -/
def constCapability (c : HandleCode) : Capability Unit Unit := fun _ s => (c, s)

/-- A handler chain of two handlers: the first returns FAIL, the second OK. -/
def failThenOK : handlerList Unit Unit :=
  [constructHandlerListItem (constCapability FAIL) 2,
   constructHandlerListItem (constCapability OK) 1]

/-- A handler chain of two handlers: the first returns FAIL, the second the
code 2, which is neither OK nor FAIL. -/
def failThenTwo : handlerList Unit Unit :=
  [constructHandlerListItem (constCapability FAIL) 2,
   constructHandlerListItem (constCapability 2) 1]

/-- Seven authenticators in the order they are pushed: six of priority 5, told
apart by the codes 10 to 15 they return, then one of priority 1. -/
def sevenAuthenticators : List (authenticatorListItem Unit Unit) :=
  [constructAuthenticatorListItem (constCapability 10) 5,
   constructAuthenticatorListItem (constCapability 11) 5,
   constructAuthenticatorListItem (constCapability 12) 5,
   constructAuthenticatorListItem (constCapability 13) 5,
   constructAuthenticatorListItem (constCapability 14) 5,
   constructAuthenticatorListItem (constCapability 15) 5,
   constructAuthenticatorListItem (constCapability 16) 1]

/-- Seven handlers in the order they are pushed: six of priority 1, told apart
by the codes 10 to 15 they return, then one of priority 5. -/
def sevenHandlers : List (handlerListItem Unit Unit) :=
  [constructHandlerListItem (constCapability 10) 1,
   constructHandlerListItem (constCapability 11) 1,
   constructHandlerListItem (constCapability 12) 1,
   constructHandlerListItem (constCapability 13) 1,
   constructHandlerListItem (constCapability 14) 1,
   constructHandlerListItem (constCapability 15) 1,
   constructHandlerListItem (constCapability 16) 5]

/-- The events of one life of a server: `Start()` is called and takes effect,
the loop takes the default case and is inside `Accept`, `Destroy` sends on
`stop` and closes the listener, `Accept` returns an error, and the loop
receives from `stop`. -/
def startThenDestroy : List (Event Nat) :=
  [Event.Start, Event.onceDo, Event.loopTest, Event.destroySend, Event.destroyClose,
   Event.acceptReturn false, Event.loopTest, Event.destroyWait, Event.loopTest]

/-- The events of a server at work: `Start()` is called and takes effect, a
connection is accepted, `Bind` is called, `Start()` is called again and its
goroutine finds the `sync.Once` fired, and the loop is inside `Accept`
again. -/
def startedTwice : List (Event Nat) :=
  [Event.Start, Event.onceDo, Event.loopTest, Event.acceptReturn true, Event.wgAdd,
   Event.spawn, Event.Bind "echo" 3, Event.Start, Event.onceDo, Event.loopTest]

/-- The bytes of the line `PROXY x`, newline included. -/
def proxyLineX : List Nat := PROXY ++ [120, 10]

/-- The bytes of the line `PROXY y`, newline included. -/
def proxyLineY : List Nat := PROXY ++ [121, 10]

/-- The 17 bytes of the request `{"method":"echo"}`. -/
def echoRequest : List Nat :=
  [123, 34, 109, 101, 116, 104, 111, 100, 34, 58, 34, 101, 99, 104, 111, 34, 125]

/-- The 27 bytes of the request `{"method":"heartbeat.post"}`. -/
def heartbeatRequest : List Nat :=
  [123, 34, 109, 101, 116, 104, 111, 100, 34, 58, 34, 104, 101, 97, 114, 116, 98, 101, 97,
   116, 46, 112, 111, 115, 116, 34, 125]

/-- The 7 bytes of the request `{"a":1}`. -/
def shortRequest : List Nat := [123, 34, 97, 34, 58, 49, 125]

/-- The events of a `Destroy` that finds a connection in flight: `Start()` is
called and takes effect, a connection is accepted, counted and handed to a
goroutine of `serveConn`, the loop is inside `Accept` again, and `Destroy` sends
on `stop` and closes the listener. -/
def destroyWithTaskInFlight : List (Event Nat) :=
  [Event.Start, Event.onceDo, Event.loopTest, Event.acceptReturn true, Event.wgAdd,
   Event.spawn, Event.loopTest, Event.destroySend, Event.destroyClose]

end Endpoint

/-! # Theorems -/

namespace Endpoint

/-! ## The two Iterate loops -/

theorem callAll_length {ι A σ : Type} (call : ι → Capability A σ) (args : A) :
    ∀ (l : List ι) (s : σ), (callAll call args l s).1.length = l.length
  | [], _ => rfl
  | item :: rest, s => by
    simp [callAll, callAll_length call args rest]

theorem callAll_map_fst {ι A σ : Type} (call : ι → Capability A σ) (args : A) :
    ∀ (l : List ι) (s : σ), (callAll call args l s).1.map Prod.fst = l
  | [], _ => rfl
  | item :: rest, s => by
    simp [callAll, callAll_map_fst call args rest]

theorem authenticatorList_iterateLoop_eq {A σ : Type} (args : A) :
    ∀ (l : List (authenticatorListItem A σ)) (ret : HandleCode) (s : σ)
      (calls : List (authenticatorListItem A σ × HandleCode)),
      authenticatorList.iterateLoop args l ret s calls =
        chainLoop isOKorFAIL (fun i => i.authenticator) args l ret s calls
  | [], _, _, _ => rfl
  | item :: rest, ret, s, calls => by
    simp only [authenticatorList.iterateLoop, chainLoop, isOKorFAIL, decide_eq_true_eq]
    rw [authenticatorList_iterateLoop_eq args rest]

theorem handlerList_iterateLoop_eq {A σ : Type} (args : A) :
    ∀ (l : List (handlerListItem A σ)) (ret : HandleCode) (s : σ)
      (calls : List (handlerListItem A σ × HandleCode)),
      handlerList.iterateLoop args l ret s calls =
        chainLoop isOK (fun i => i.handler) args l ret s calls
  | [], _, _, _ => rfl
  | item :: rest, ret, s, calls => by
    simp only [handlerList.iterateLoop, chainLoop, isOK, decide_eq_true_eq]
    rw [handlerList_iterateLoop_eq args rest]

/-- The value a loop returns, read off the codes the capabilities return when
called in chain order: the code of the first call the stopping test accepts,
and, when it accepts none, the code of the last call (the initial value of
`ret` on the empty chain). -/
theorem chainLoop_ret {ι A σ : Type} (stop : HandleCode → Bool) (call : ι → Capability A σ)
    (args : A) :
    ∀ (l : List ι) (ret : HandleCode) (s : σ) (calls : List (ι × HandleCode)),
      (∀ c, (callAll call args l s).1.find? (fun c => stop c.2) = some c →
        (chainLoop stop call args l ret s calls).ret = c.2) ∧
      ((∀ c ∈ (callAll call args l s).1, stop c.2 = false) →
        (chainLoop stop call args l ret s calls).ret =
          (((callAll call args l s).1.getLast?).map Prod.snd).getD ret)
  | [], ret, s, calls => by
    simp [callAll, chainLoop]
  | item :: rest, ret, s, calls => by
    have ih := chainLoop_ret stop call args rest (call item args s).1
      (call item args s).2 (calls ++ [(item, (call item args s).1)])
    cases hb : stop (call item args s).1
    · constructor
      · intro c hc
        simp only [callAll, List.find?_cons, hb] at hc
        simp only [chainLoop, hb, Bool.false_eq_true, if_false]
        exact ih.1 c hc
      · intro hall
        simp only [chainLoop, hb, Bool.false_eq_true, if_false]
        rw [ih.2 (fun c hc => hall c (by simp [callAll, hc]))]
        cases hrest : (callAll call args rest (call item args s).2).1 with
        | nil => simp [callAll, hrest]
        | cons c cs =>
          simp [callAll, hrest, List.getLast?_cons_cons,
            List.getLast?_eq_getLast (c :: cs) (List.cons_ne_nil c cs)]
    · constructor
      · intro c hc
        simp only [callAll, List.find?_cons, hb] at hc
        simp only [chainLoop, hb, if_true]
        cases hc
        rfl
      · intro hall
        have := hall (item, (call item args s).1) (by simp [callAll])
        simp [hb] at this

/-- The calls a loop makes: the capabilities of a prefix of the chain, in chain
order; every call but the last is one the stopping test rejects; the loop stops
short of the end of the chain only after a call the test accepts; the returned
code is the code of the last call. -/
theorem chainLoop_calls {ι A σ : Type} (stop : HandleCode → Bool) (call : ι → Capability A σ)
    (args : A) :
    ∀ (l : List ι) (ret : HandleCode) (s : σ) (calls : List (ι × HandleCode)),
      ∃ n, n ≤ l.length ∧
        (chainLoop stop call args l ret s calls).calls =
          calls ++ (callAll call args (l.take n) s).1 ∧
        (chainLoop stop call args l ret s calls).state = (callAll call args (l.take n) s).2 ∧
        (chainLoop stop call args l ret s calls).ret =
          (((callAll call args (l.take n) s).1.getLast?).map Prod.snd).getD ret ∧
        (∀ c ∈ (callAll call args (l.take n) s).1.dropLast, stop c.2 = false) ∧
        (n < l.length →
          ∃ c, (callAll call args (l.take n) s).1.getLast? = some c ∧ stop c.2 = true)
  | [], ret, s, calls => ⟨0, by simp [callAll, chainLoop]⟩
  | item :: rest, ret, s, calls => by
    cases hb : stop (call item args s).1
    · obtain ⟨n, hn, hcalls, hstate, hret, hinit, hlast⟩ :=
        chainLoop_calls stop call args rest (call item args s).1
          (call item args s).2 (calls ++ [(item, (call item args s).1)])
      refine ⟨n + 1, by simpa using hn, ?_, ?_, ?_, ?_, ?_⟩
      · simp only [chainLoop, hb, Bool.false_eq_true, if_false, hcalls, List.take_succ_cons,
          callAll, List.append_assoc, List.singleton_append]
      · simp only [chainLoop, hb, Bool.false_eq_true, if_false, hstate, List.take_succ_cons,
          callAll]
      · simp only [chainLoop, hb, Bool.false_eq_true, if_false, hret, List.take_succ_cons,
          callAll]
        cases hrest : (callAll call args (List.take n rest) (call item args s).2).1 with
        | nil => simp
        | cons c cs =>
          simp [List.getLast?_cons_cons,
            List.getLast?_eq_getLast (c :: cs) (List.cons_ne_nil c cs)]
      · intro c hc
        simp only [List.take_succ_cons, callAll] at hc
        cases hrest : (callAll call args (List.take n rest) (call item args s).2).1 with
        | nil => simp [hrest] at hc
        | cons d ds =>
          rw [hrest, List.dropLast_cons₂, List.mem_cons] at hc
          rcases hc with rfl | hc
          · exact hb
          · exact hinit c (by rw [hrest]; exact hc)
      · intro hlt
        obtain ⟨c, hc, hstop⟩ := hlast (by simpa using hlt)
        refine ⟨c, ?_, hstop⟩
        simp only [List.take_succ_cons, callAll]
        cases hrest : (callAll call args (List.take n rest) (call item args s).2).1 with
        | nil => simp [hrest] at hc
        | cons d ds =>
          rw [List.getLast?_cons_cons, ← hrest]
          exact hc
    · refine ⟨1, by simp, ?_, ?_, ?_, ?_, ?_⟩
      · simp [chainLoop, hb, callAll]
      · simp [chainLoop, hb, callAll]
      · simp [chainLoop, hb, callAll]
      · simp [callAll]
      · intro _
        exact ⟨(item, (call item args s).1), by simp [callAll], hb⟩

/-! ## authenticatorList.Iterate -/

/-- C1: `authenticatorList.Iterate` returns the code of the first authenticator,
in chain order, that returns OK or FAIL; when every authenticator returns
DECLINED, and on the empty chain, it returns DECLINED. -/
theorem authenticatorList_Iterate_ret_first_OK_or_FAIL {A σ : Type} (DECLINED : HandleCode)
    (l : authenticatorList A σ) (args : A) (s : σ) :
    (∀ pre c post, (callAll (fun i => i.authenticator) args l s).1 = pre ++ c :: post →
      (∀ d ∈ pre, d.2 ≠ OK ∧ d.2 ≠ FAIL) → (c.2 = OK ∨ c.2 = FAIL) →
        (authenticatorList.Iterate DECLINED l args s).ret = c.2) ∧
    ((∀ c ∈ (callAll (fun i => i.authenticator) args l s).1, c.2 = DECLINED) →
      (authenticatorList.Iterate DECLINED l args s).ret = DECLINED) := by
  have hspec := chainLoop_ret isOKorFAIL (fun i : authenticatorListItem A σ => i.authenticator)
    args l DECLINED s []
  rw [← authenticatorList_iterateLoop_eq] at hspec
  constructor
  · intro pre c post hsplit hpre hc
    apply hspec.1 c
    rw [List.find?_eq_some]
    refine ⟨?_, pre, post, hsplit, ?_⟩
    · rcases hc with hc | hc <;> simp [isOKorFAIL, hc]
    · intro d hd
      have := hpre d hd
      simp [isOKorFAIL, Ne.symm this.1, Ne.symm this.2]
  · intro hall
    cases hfind : (callAll (fun i : authenticatorListItem A σ => i.authenticator) args l s).1.find?
        (fun c => isOKorFAIL c.2) with
    | some c =>
      have hret := hspec.1 c hfind
      have hmem := List.mem_of_find?_eq_some hfind
      exact hret.trans (hall c hmem)
    | none =>
      have hret := hspec.2 (by
        intro c hc
        have := List.find?_eq_none.1 hfind c hc
        simpa using this)
      refine hret.trans ?_
      cases hlast : (callAll (fun i : authenticatorListItem A σ => i.authenticator)
          args l s).1.getLast? with
      | none => rfl
      | some c => exact hall c (List.mem_of_getLast?_eq_some hlast)

/-- C2: the calls `authenticatorList.Iterate` makes are those of a prefix of the
chain, front to back, one call for each position; every call but the last
returns neither OK nor FAIL; the loop stops before the end of the chain only
after a call that returns OK or FAIL. -/
theorem authenticatorList_Iterate_calls_prefix {A σ : Type} (DECLINED : HandleCode)
    (l : authenticatorList A σ) (args : A) (s : σ) :
    ∃ n, n ≤ l.length ∧
      (authenticatorList.Iterate DECLINED l args s).calls =
        (callAll (fun i => i.authenticator) args (l.take n) s).1 ∧
      (authenticatorList.Iterate DECLINED l args s).calls.map Prod.fst = l.take n ∧
      (∀ c ∈ (authenticatorList.Iterate DECLINED l args s).calls.dropLast,
        c.2 ≠ OK ∧ c.2 ≠ FAIL) ∧
      (n < l.length → ∃ c,
        (authenticatorList.Iterate DECLINED l args s).calls.getLast? = some c ∧
          (c.2 = OK ∨ c.2 = FAIL)) := by
  obtain ⟨n, hn, hcalls, -, -, hinit, hlast⟩ :=
    chainLoop_calls isOKorFAIL (fun i : authenticatorListItem A σ => i.authenticator)
      args l DECLINED s []
  rw [← authenticatorList_iterateLoop_eq, List.nil_append] at hcalls
  refine ⟨n, hn, hcalls, ?_, ?_, ?_⟩
  · rw [authenticatorList.Iterate, hcalls, callAll_map_fst]
  · intro c hc
    rw [authenticatorList.Iterate, hcalls] at hc
    have := hinit c hc
    simp only [isOKorFAIL, decide_eq_false_iff_not, not_or] at this
    exact ⟨fun h => this.1 h.symm, fun h => this.2 h.symm⟩
  · intro hlt
    obtain ⟨c, hc, hstop⟩ := hlast hlt
    refine ⟨c, by rw [authenticatorList.Iterate, hcalls]; exact hc, ?_⟩
    simp only [isOKorFAIL, decide_eq_true_eq] at hstop
    rcases hstop with h | h
    · exact Or.inl h.symm
    · exact Or.inr h.symm

/-! ## handlerList.Iterate -/

/-- C4: the calls `handlerList.Iterate` makes are those of a prefix of the
chain, front to back, one call for each position; every call but the last
returns a code other than OK; the loop stops before the end of the chain only
after a call that returns OK; and the result is OK whenever some handler
returns OK, among the calls made or called in chain order. -/
theorem handlerList_Iterate_calls_prefix {A σ : Type} (l : handlerList A σ) (args : A)
    (s : σ) :
    (∃ n, n ≤ l.length ∧
      (handlerList.Iterate l args s).calls =
        (callAll (fun i => i.handler) args (l.take n) s).1 ∧
      (handlerList.Iterate l args s).calls.map Prod.fst = l.take n ∧
      (∀ c ∈ (handlerList.Iterate l args s).calls.dropLast, c.2 ≠ OK) ∧
      (n < l.length → ∃ c,
        (handlerList.Iterate l args s).calls.getLast? = some c ∧ c.2 = OK)) ∧
    ((∃ c ∈ (handlerList.Iterate l args s).calls, c.2 = OK) →
      (handlerList.Iterate l args s).ret = OK) ∧
    ((∃ c ∈ (callAll (fun i => i.handler) args l s).1, c.2 = OK) →
      (handlerList.Iterate l args s).ret = OK) := by
  obtain ⟨n, hn, hcalls, -, hret, hinit, hlast⟩ :=
    chainLoop_calls isOK (fun i : handlerListItem A σ => i.handler) args l FAIL s []
  rw [← handlerList_iterateLoop_eq, List.nil_append] at hcalls
  rw [← handlerList_iterateLoop_eq] at hret
  have hne : ∀ c ∈ (callAll (fun i : handlerListItem A σ => i.handler) args
      (l.take n) s).1.dropLast, c.2 ≠ OK := by
    intro c hc hOK
    have := hinit c hc
    simp [isOK, hOK] at this
  refine ⟨⟨n, hn, hcalls, ?_, ?_, ?_⟩, ?_, ?_⟩
  · rw [handlerList.Iterate, hcalls, callAll_map_fst]
  · intro c hc
    rw [handlerList.Iterate, hcalls] at hc
    exact hne c hc
  · intro hlt
    obtain ⟨c, hc, hstop⟩ := hlast hlt
    refine ⟨c, by rw [handlerList.Iterate, hcalls]; exact hc, ?_⟩
    simp only [isOK, decide_eq_true_eq] at hstop
    exact hstop.symm
  · rintro ⟨c, hc, hOK⟩
    rw [handlerList.Iterate, hcalls] at hc
    rw [handlerList.Iterate, hret]
    rcases List.eq_nil_or_concat
        (callAll (fun i : handlerListItem A σ => i.handler) args (l.take n) s).1 with
      hnil | ⟨init, last, hsplit⟩
    · rw [hnil] at hc
      cases hc
    · rw [hsplit, List.concat_eq_append] at hc hne ⊢
      rw [List.dropLast_concat] at hne
      rw [List.mem_append, List.mem_singleton] at hc
      rcases hc with hc | rfl
      · exact absurd hOK (hne c hc)
      · simp [hOK]
  · rintro ⟨c, hc, hOK⟩
    have hspec := chainLoop_ret isOK (fun i : handlerListItem A σ => i.handler) args l FAIL s []
    rw [← handlerList_iterateLoop_eq] at hspec
    cases hfind : (callAll (fun i : handlerListItem A σ => i.handler) args l s).1.find?
        (fun c => isOK c.2) with
    | some d =>
      have hd := List.find?_some hfind
      simp only [isOK, decide_eq_true_eq] at hd
      exact (hspec.1 d hfind).trans hd.symm
    | none =>
      have := List.find?_eq_none.1 hfind c hc
      simp [isOK, hOK] at this

/-- C5, as stated, fails: on the chain `failThenTwo` no handler returns OK and
`handlerList.Iterate` returns the code 2 of the last handler, not FAIL. -/
theorem handlerList_Iterate_no_OK_not_always_FAIL :
    ¬ (∀ (l : handlerList Unit Unit) (args : Unit) (s : Unit),
        (∀ c ∈ (callAll (fun i => i.handler) args l s).1, c.2 ≠ OK) →
          (handlerList.Iterate l args s).ret = FAIL) := by
  intro h
  have h2 := h failThenTwo () () (by
    intro c hc
    simp only [failThenTwo, callAll, constructHandlerListItem, constCapability,
      List.mem_cons, List.mem_singleton, List.not_mem_nil, or_false] at hc
    rcases hc with rfl | rfl <;> simp [OK, FAIL])
  revert h2
  decide

/-- C5, amended: when no handler of the chain returns OK, `handlerList.Iterate`
returns the code the last handler of the chain returned, and FAIL on the empty
chain. -/
theorem handlerList_Iterate_no_OK_ret_last {A σ : Type} (l : handlerList A σ) (args : A)
    (s : σ) (hno : ∀ c ∈ (callAll (fun i => i.handler) args l s).1, c.2 ≠ OK) :
    (handlerList.Iterate l args s).ret =
      (((callAll (fun i => i.handler) args l s).1.getLast?).map Prod.snd).getD FAIL := by
  have hspec := chainLoop_ret isOK (fun i : handlerListItem A σ => i.handler) args l FAIL s []
  rw [← handlerList_iterateLoop_eq] at hspec
  apply hspec.2
  intro c hc
  have := hno c hc
  simp [isOK, Ne.symm this]

/-- C5, amended, at the chain `failThenTwo`: no handler returns OK and the
result is 2, the code of the last handler. -/
theorem handlerList_Iterate_no_OK_ret_last_witness :
    (∀ c ∈ (callAll (fun i => i.handler) () failThenTwo ()).1, c.2 ≠ OK) ∧
    (handlerList.Iterate failThenTwo () ()).ret = 2 :=
  have hno : ∀ c ∈ (callAll (fun i => i.handler) () failThenTwo ()).1, c.2 ≠ OK := by
    intro c hc
    simp only [failThenTwo, callAll, constructHandlerListItem, constCapability,
      List.mem_cons, List.mem_singleton, List.not_mem_nil, or_false] at hc
    rcases hc with rfl | rfl <;> simp [OK, FAIL]
  ⟨hno, handlerList_Iterate_no_OK_ret_last failThenTwo () () hno⟩

/-- C6, as stated, fails: on the chain `failThenOK` the first handler returns
FAIL and the second handler is invoked all the same. -/
theorem handlerList_Iterate_continues_after_FAIL :
    ¬ (∀ (l : handlerList Unit Unit) (args : Unit) (s : Unit)
        (pre : List (handlerListItem Unit Unit × HandleCode))
        (c : handlerListItem Unit Unit × HandleCode)
        (post : List (handlerListItem Unit Unit × HandleCode)),
        (handlerList.Iterate l args s).calls = pre ++ c :: post → c.2 = FAIL → post = []) := by
  intro h
  have h2 := h failThenOK () () []
    (constructHandlerListItem (constCapability FAIL) 2, FAIL)
    [(constructHandlerListItem (constCapability OK) 1, OK)] rfl rfl
  cases h2

/-- C6, amended: `handlerList.Iterate` stops early only on OK.  When the last
call it made returned a code other than OK (FAIL, for one), it has invoked
every handler of the chain. -/
theorem handlerList_Iterate_stops_only_on_OK {A σ : Type} (l : handlerList A σ) (args : A)
    (s : σ) (c : handlerListItem A σ × HandleCode)
    (hlast : (handlerList.Iterate l args s).calls.getLast? = some c) (hc : c.2 ≠ OK) :
    (handlerList.Iterate l args s).calls.map Prod.fst = l := by
  obtain ⟨n, hn, hcalls, -, -, -, hstop⟩ :=
    chainLoop_calls isOK (fun i : handlerListItem A σ => i.handler) args l FAIL s []
  rw [← handlerList_iterateLoop_eq, List.nil_append] at hcalls
  rw [handlerList.Iterate] at hlast ⊢
  rw [hcalls] at hlast
  rw [hcalls, callAll_map_fst]
  by_cases hlt : n < l.length
  · obtain ⟨d, hd, hdOK⟩ := hstop hlt
    rw [hlast] at hd
    cases hd
    simp only [isOK, decide_eq_true_eq] at hdOK
    exact absurd hdOK.symm hc
  · exact List.take_of_length_le (by omega)

/-- C6, amended, at the chain `failThenTwo`: the first handler returns FAIL, the
last call returns 2, and both handlers have been invoked. -/
theorem handlerList_Iterate_stops_only_on_OK_witness :
    (handlerList.Iterate failThenTwo () ()).calls.map Prod.fst = failThenTwo :=
  handlerList_Iterate_stops_only_on_OK failThenTwo () ()
    (constructHandlerListItem (constCapability 2) 1, 2) rfl (by decide)

/-! ## The sort package on lists -/

theorem swapAt_length {α : Type} (l : List α) (i j : Nat) : (swapAt l i j).length = l.length := by
  unfold swapAt
  split <;> simp

theorem cons_set_perm {α : Type} (a y : α) :
    ∀ (t : List α) (j : Nat), t[j]? = some y → (y :: t.set j a).Perm (a :: t)
  | [], j, h => by simp at h
  | b :: u, 0, h => by
    simp only [List.getElem?_cons_zero, Option.some.injEq] at h
    subst h
    exact List.Perm.swap _ _ _
  | b :: u, j + 1, h => by
    simp only [List.getElem?_cons_succ] at h
    have ih := cons_set_perm a y u j h
    simp only [List.set_cons_succ]
    exact (List.Perm.swap b y _).trans (((ih.cons b)).trans (List.Perm.swap a b u))

theorem swapAt_perm {α : Type} : ∀ (l : List α) (i j : Nat), (swapAt l i j).Perm l
  | [], i, j => by simp [swapAt]
  | a :: t, 0, 0 => by simp [swapAt]
  | a :: t, 0, j + 1 => by
    unfold swapAt
    cases h : t[j]? with
    | none => simp [h]
    | some y =>
      simp only [List.getElem?_cons_zero, List.getElem?_cons_succ, h, List.set_cons_zero,
        List.set_cons_succ]
      exact cons_set_perm a y t j h
  | a :: t, i + 1, 0 => by
    unfold swapAt
    cases h : t[i]? with
    | none => simp [h]
    | some x =>
      simp only [List.getElem?_cons_zero, List.getElem?_cons_succ, h, List.set_cons_zero,
        List.set_cons_succ]
      exact cons_set_perm a x t i h
  | a :: t, i + 1, j + 1 => by
    have ih := swapAt_perm t i j
    unfold swapAt at ih ⊢
    simp only [List.getElem?_cons_succ]
    cases hi : t[i]? with
    | none => simp
    | some x =>
      cases hj : t[j]? with
      | none => simp
      | some y =>
        simp only [hi, hj] at ih
        simp only [List.set_cons_succ]
        exact ih.cons a

theorem sort_Swaps_trans {D : Type} {data : sort.Interface D} {d d' d'' : D}
    (h : sort.Swaps data d d') (h' : sort.Swaps data d' d'') : sort.Swaps data d d'' := by
  induction h with
  | refl d => exact h'
  | step d i j d' hi hj _ ih => exact sort.Swaps.step d i j d'' hi hj (ih h')

theorem sort_Swaps_one {D : Type} {data : sort.Interface D} (d : D) (i j : Nat)
    (hi : i < data.Len d) (hj : j < data.Len d) : sort.Swaps data d (data.Swap d i j) :=
  sort.Swaps.step d i j _ hi hj (sort.Swaps.refl _)

/-- On a list whose `Swap` is the assignment of the source, data reached by
`Swap` calls holds the same elements. -/
theorem sort_Swaps_perm {α : Type} {data : sort.Interface (List α)}
    (hswap : data.Swap = swapAt) {d d' : List α} (h : sort.Swaps data d d') : d'.Perm d := by
  induction h with
  | refl d => exact List.Perm.refl d
  | step d i j d' _ _ _ ih =>
    rw [hswap] at ih
    exact ih.trans (swapAt_perm d i j)

theorem listInterface_Less {α : Type} (less : α → α → Bool) (l : List α) (i j : Nat)
    (hi : i < l.length) (hj : j < l.length) :
    (listInterface less).Less l i j = less l[i] l[j] := by
  simp [listInterface, List.getElem?_eq_getElem hi, List.getElem?_eq_getElem hj]

/-- Ascending order by index is ascending order of the list: no element is
less than an element before it. -/
theorem ascending_pairwise {α : Type} (less : α → α → Bool) (l : List α)
    (h : sort.Ascending (listInterface less) l) :
    l.Pairwise (fun a b => less b a = false) := by
  rw [List.pairwise_iff_getElem]
  intro i j hi hj hij
  have := h i j hij hj
  rwa [listInterface_Less less l j i hj hi] at this

/-! ## insertionSort on a list -/

theorem getElem?_mid {α : Type} (pre : List α) (p x : α) (post : List α) :
    (pre ++ p :: x :: post)[pre.length]? = some p ∧
    (pre ++ p :: x :: post)[pre.length + 1]? = some x := by
  constructor
  · rw [List.getElem?_append_right (Nat.le_refl _)]; simp
  · rw [List.getElem?_append_right (Nat.le_succ _)]; simp

theorem swapAt_mid {α : Type} (pre : List α) (p x : α) (post : List α) :
    swapAt (pre ++ p :: x :: post) (pre.length + 1) pre.length = pre ++ x :: p :: post := by
  unfold swapAt
  rw [(getElem?_mid pre p x post).1, (getElem?_mid pre p x post).2]
  simp [List.set_append]

/-- The inner loop of `insertionSort` on a list, started at the element `x`
that follows `pre`, is `slideLeft` on the elements of `pre`. -/
theorem inner_listInterface {α : Type} (less : α → α → Bool) :
    ∀ (k : Nat) (pre : List α) (x : α) (post : List α), pre.length = k →
      sort.insertionSort.inner (listInterface less) 0 k (pre ++ x :: post) =
        (slideLeft less x pre.reverse).reverse ++ post
  | 0, pre, x, post, h => by
    have : pre = [] := List.length_eq_zero.1 h
    subst this
    simp [sort.insertionSort.inner, slideLeft]
  | k + 1, pre, x, post, h => by
    rcases List.eq_nil_or_concat pre with rfl | ⟨pre', p, rfl⟩
    · simp at h
    · rw [List.concat_eq_append] at h ⊢
      have hk : pre'.length = k := by simpa using h
      have hless : (listInterface less).Less (pre' ++ [p] ++ x :: post) (0 + k + 1) (0 + k) =
          less x p := by
        simp only [listInterface, List.append_assoc, List.singleton_append, Nat.zero_add, ← hk,
          (getElem?_mid pre' p x post).1, (getElem?_mid pre' p x post).2]
      have hswap : (listInterface less).Swap (pre' ++ [p] ++ x :: post) (0 + k + 1) (0 + k) =
          pre' ++ x :: p :: post := by
        simp only [listInterface, List.append_assoc, List.singleton_append, Nat.zero_add, ← hk,
          swapAt_mid]
      rw [sort.insertionSort.inner, hless]
      cases hb : less x p
      · simp [slideLeft, hb]
      · rw [if_pos rfl, hswap, inner_listInterface less k pre' x (p :: post) hk]
        simp [slideLeft, hb]

theorem slideLeft_length {α : Type} (less : α → α → Bool) (x : α) :
    ∀ l : List α, (slideLeft less x l).length = l.length + 1
  | [] => rfl
  | p :: ps => by
    unfold slideLeft
    split <;> simp [slideLeft_length less x ps]

/-- The outer loop of `insertionSort` on a list, from the index after `pre` on,
slides the elements of `rest` into `pre` one after the other. -/
theorem insertionSort_loop_listInterface {α : Type} (less : α → α → Bool) :
    ∀ (rest pre : List α),
      (List.range' pre.length rest.length).foldl
          (fun d i => sort.insertionSort.inner (listInterface less) 0 (i - 0) d) (pre ++ rest) =
        (rest.foldl (fun acc x => slideLeft less x acc) pre.reverse).reverse
  | [], pre => by simp
  | x :: rest, pre => by
    have hlen : ((slideLeft less x pre.reverse).reverse).length = pre.length + 1 := by
      simp [slideLeft_length]
    have ih := insertionSort_loop_listInterface less rest (slideLeft less x pre.reverse).reverse
    rw [hlen, List.reverse_reverse] at ih
    simp only [List.length_cons, List.range'_succ, List.foldl_cons, Nat.sub_zero]
    rw [inner_listInterface less pre.length pre x rest rfl]
    exact ih

/-- The function `insertionSort(data, 0, n)` on a list of `n` elements. -/
theorem insertionSortAll_listInterface {α : Type} (less : α → α → Bool) (d : List α) :
    sort.insertionSortAll (listInterface less) d =
      (d.foldl (fun acc x => slideLeft less x acc) []).reverse := by
  cases d with
  | nil => rfl
  | cons x rest =>
    have := insertionSort_loop_listInterface less rest [x]
    simp only [List.length_singleton, List.singleton_append, List.reverse_singleton] at this
    simp only [sort.insertionSortAll, sort.insertionSort, listInterface, List.length_cons,
      Nat.zero_add, Nat.add_sub_cancel, List.foldl_cons, slideLeft]
    exact this

/-- The element `x` slides into a list in which no element is less than one to
its right, and leaves it so; `less` is asymmetric and its negation transitive,
as the comparison of two priorities is. -/
theorem slideLeft_pairwise {α : Type} (less : α → α → Bool)
    (hasymm : ∀ a b, less a b = true → less b a = false)
    (htrans : ∀ a b c, less a b = false → less b c = false → less a c = false) (x : α) :
    ∀ l : List α, l.Pairwise (fun a b => less a b = false) →
      (slideLeft less x l).Pairwise (fun a b => less a b = false)
  | [], _ => by simp [slideLeft]
  | p :: ps, h => by
    rw [List.pairwise_cons] at h
    unfold slideLeft
    cases hb : less x p
    · simp only [Bool.false_eq_true, if_false, List.pairwise_cons, List.mem_cons]
      refine ⟨?_, h⟩
      rintro b (rfl | hb')
      · exact hb
      · exact htrans x p b hb (h.1 b hb')
    · simp only [if_true, List.pairwise_cons]
      refine ⟨?_, slideLeft_pairwise less hasymm htrans x ps h.2⟩
      intro b hmem
      have hperm : b = x ∨ b ∈ ps := by
        clear h hb
        induction ps with
        | nil => simpa [slideLeft] using hmem
        | cons q qs ih =>
          unfold slideLeft at hmem
          split at hmem
          · rcases List.mem_cons.1 hmem with rfl | h'
            · exact Or.inr (List.mem_cons_self _ _)
            · rcases ih h' with rfl | h''
              · exact Or.inl rfl
              · exact Or.inr (List.mem_cons_of_mem _ h'')
          · rcases List.mem_cons.1 hmem with rfl | h'
            · exact Or.inl rfl
            · exact Or.inr h'
      rcases hperm with rfl | hps
      · exact hasymm _ _ hb
      · exact h.1 b hps

theorem foldl_slideLeft_pairwise {α : Type} (less : α → α → Bool)
    (hasymm : ∀ a b, less a b = true → less b a = false)
    (htrans : ∀ a b c, less a b = false → less b c = false → less a c = false) :
    ∀ (d acc : List α), acc.Pairwise (fun a b => less a b = false) →
      (d.foldl (fun acc x => slideLeft less x acc) acc).Pairwise (fun a b => less a b = false)
  | [], _, h => h
  | x :: rest, acc, h =>
    foldl_slideLeft_pairwise less hasymm htrans rest _
      (slideLeft_pairwise less hasymm htrans x acc h)

/-- The function `insertionSort(data, 0, n)` leaves a list in ascending order. -/
theorem insertionSortAll_ascending {α : Type} (less : α → α → Bool)
    (hasymm : ∀ a b, less a b = true → less b a = false)
    (htrans : ∀ a b c, less a b = false → less b c = false → less a c = false)
    (d : List α) :
    sort.Ascending (listInterface less) (sort.insertionSortAll (listInterface less) d) := by
  have hpw := foldl_slideLeft_pairwise less hasymm htrans d [] List.Pairwise.nil
  rw [insertionSortAll_listInterface]
  intro i j hij hj
  have hi : i < (d.foldl (fun acc x => slideLeft less x acc) []).reverse.length := by
    exact Nat.lt_trans hij hj
  change j < (d.foldl (fun acc x => slideLeft less x acc) []).reverse.length at hj
  rw [listInterface_Less less _ j i hj hi]
  have hrev : (d.foldl (fun acc x => slideLeft less x acc) []).reverse.Pairwise
      (fun a b => less b a = false) := List.pairwise_reverse.2 hpw
  exact (List.pairwise_iff_getElem.1 hrev) i j hi hj hij

/-! ## The two sorts keep the promise of sort.Sort on a list -/

theorem listInterface_Less_lt {α : Type} (less : α → α → Bool) (l : List α) (i j : Nat)
    (h : (listInterface less).Less l i j = true) : i < l.length ∧ j < l.length := by
  simp only [listInterface] at h
  split at h
  · next x y hx hy =>
    exact ⟨(List.getElem?_eq_some.1 hx).1, (List.getElem?_eq_some.1 hy).1⟩
  · cases h

theorem inner_swaps {α : Type} (less : α → α → Bool) (a : Nat) :
    ∀ (k : Nat) (d : List α),
      sort.Swaps (listInterface less) d (sort.insertionSort.inner (listInterface less) a k d)
  | 0, d => sort.Swaps.refl d
  | k + 1, d => by
    unfold sort.insertionSort.inner
    split
    · next h =>
      have hlt := listInterface_Less_lt less d _ _ h
      exact sort.Swaps.step d _ _ _ hlt.1 hlt.2 (inner_swaps less a k _)
    · exact sort.Swaps.refl d

theorem foldl_swaps {D ι : Type} (data : sort.Interface D) (f : D → ι → D)
    (hf : ∀ d i, sort.Swaps data d (f d i)) :
    ∀ (is : List ι) (d : D), sort.Swaps data d (is.foldl f d)
  | [], d => sort.Swaps.refl d
  | i :: is, d => sort_Swaps_trans (hf d i) (foldl_swaps data f hf is (f d i))

theorem insertionSort_swaps {α : Type} (less : α → α → Bool) (a b : Nat) (d : List α) :
    sort.Swaps (listInterface less) d (sort.insertionSort (listInterface less) a b d) :=
  foldl_swaps _ _ (fun d i => inner_swaps less a (i - a) d) _ d

theorem shellPass_swaps {α : Type} (less : α → α → Bool) (a b : Nat) (d : List α) :
    sort.Swaps (listInterface less) d (sort.shellPass (listInterface less) a b d) := by
  refine foldl_swaps _ _ (fun d i => ?_) _ d
  split
  · next h =>
    have hlt := listInterface_Less_lt less d _ _ h
    exact sort_Swaps_one d _ _ hlt.1 hlt.2
  · exact sort.Swaps.refl d

theorem listInterface_swaps_length {α : Type} (less : α → α → Bool) {d d' : List α}
    (h : sort.Swaps (listInterface less) d d') : d'.length = d.length :=
  (sort_Swaps_perm rfl h).length_eq

/-- The sort that is `insertionSort(data, 0, n)` keeps the promise of
`sort.Sort` on a list. -/
theorem insertionSortAll_sorts {α : Type} (less : α → α → Bool)
    (hasymm : ∀ a b, less a b = true → less b a = false)
    (htrans : ∀ a b c, less a b = false → less b c = false → less a c = false) :
    sort.Sorts (listInterface less) sort.insertionSortAll :=
  fun d => ⟨insertionSort_swaps less 0 _ d, insertionSortAll_ascending less hasymm htrans d⟩

/-- The sort that is the pass with gap 6 followed by `insertionSort(data, 0, n)`
keeps the promise of `sort.Sort` on a list. -/
theorem shellInsertionSort_sorts {α : Type} (less : α → α → Bool)
    (hasymm : ∀ a b, less a b = true → less b a = false)
    (htrans : ∀ a b c, less a b = false → less b c = false → less a c = false) :
    sort.Sorts (listInterface less) sort.shellInsertionSort := by
  intro d
  unfold sort.shellInsertionSort
  split
  · have hshell := shellPass_swaps less 0 ((listInterface less).Len d) d
    have hlen : (listInterface less).Len d =
        (listInterface less).Len (sort.shellPass (listInterface less) 0
          ((listInterface less).Len d) d) :=
      (listInterface_swaps_length less hshell).symm
    refine ⟨sort_Swaps_trans hshell (insertionSort_swaps less 0 _ _), ?_⟩
    have hasc := insertionSortAll_ascending less hasymm htrans
      (sort.shellPass (listInterface less) 0 ((listInterface less).Len d) d)
    rw [sort.insertionSortAll, ← hlen] at hasc
    exact hasc
  · next hle =>
    refine ⟨sort.Swaps.refl d, ?_⟩
    intro i j hij hj
    omega

theorem priority_lt_asymm {α : Type} (key : α → Int) (a b : α)
    (h : decide (key a < key b) = true) : decide (key b < key a) = false := by
  simp only [decide_eq_true_eq, decide_eq_false_iff_not, not_lt] at h ⊢
  omega

theorem priority_lt_trans {α : Type} (key : α → Int) (a b c : α)
    (h : decide (key a < key b) = false) (h' : decide (key b < key c) = false) :
    decide (key a < key c) = false := by
  simp only [decide_eq_false_iff_not, not_lt] at h h' ⊢
  omega

/-! ## Push keeps the chains sorted -/

theorem authenticatorList_sortInterface_eq {A σ : Type} :
    (authenticatorList.sortInterface : sort.Interface (authenticatorList A σ)) =
      listInterface (fun x y => decide (x.priority < y.priority)) := by
  simp only [authenticatorList.sortInterface, listInterface, sort.Interface.mk.injEq]
  refine ⟨rfl, ?_, rfl⟩
  funext l i j
  unfold authenticatorList.Less
  cases l[i]? <;> cases l[j]? <;> rfl

theorem handlerList_sortInterface_eq {A σ : Type} :
    (handlerList.sortInterface : sort.Interface (handlerList A σ)) =
      listInterface (fun x y => decide (x.priority > y.priority)) := by
  simp only [handlerList.sortInterface, listInterface, sort.Interface.mk.injEq]
  refine ⟨rfl, ?_, rfl⟩
  funext l i j
  unfold handlerList.Less
  cases l[i]? <;> cases l[j]? <;> rfl

theorem authenticatorList_pushAll_concat {A σ : Type}
    (sortSort : sort.Interface (authenticatorList A σ) → authenticatorList A σ →
      authenticatorList A σ)
    (xs : List (authenticatorListItem A σ)) (x : authenticatorListItem A σ) :
    authenticatorList.pushAll sortSort (xs ++ [x]) =
      sortSort authenticatorList.sortInterface (authenticatorList.pushAll sortSort xs ++ [x]) := by
  simp [authenticatorList.pushAll, authenticatorList.Push, List.foldl_append]

theorem handlerList_pushAll_concat {A σ : Type}
    (sortSort : sort.Interface (handlerList A σ) → handlerList A σ → handlerList A σ)
    (xs : List (handlerListItem A σ)) (x : handlerListItem A σ) :
    handlerList.pushAll sortSort (xs ++ [x]) =
      sortSort handlerList.sortInterface (handlerList.pushAll sortSort xs ++ [x]) := by
  simp [handlerList.pushAll, handlerList.Push, List.foldl_append]

/-- C3: after any sequence of `Push` calls on the list of
`newAuthenticatorList()`, with a `sort.Sort` that keeps the promise of its
documentation, the authenticator list is sorted by non-decreasing priority from
front to back. -/
theorem authenticatorList_pushAll_sorted {A σ : Type}
    (sortSort : sort.Interface (authenticatorList A σ) → authenticatorList A σ →
      authenticatorList A σ)
    (hsort : sort.Sorts authenticatorList.sortInterface sortSort)
    (xs : List (authenticatorListItem A σ)) :
    (authenticatorList.pushAll sortSort xs).Pairwise (fun a b => a.priority ≤ b.priority) := by
  rcases List.eq_nil_or_concat xs with rfl | ⟨init, x, rfl⟩
  · exact List.Pairwise.nil
  · rw [List.concat_eq_append, authenticatorList_pushAll_concat]
    have hasc := (hsort (authenticatorList.pushAll sortSort init ++ [x])).2
    rw [authenticatorList_sortInterface_eq] at hasc ⊢
    refine (ascending_pairwise _ _ hasc).imp ?_
    intro a b hab
    simpa using hab

/-- C7: after any sequence of `Push` calls on the list of `newHandlerList()`,
with a `sort.Sort` that keeps the promise of its documentation, the handler list
is sorted by non-increasing priority from front to back. -/
theorem handlerList_pushAll_sorted {A σ : Type}
    (sortSort : sort.Interface (handlerList A σ) → handlerList A σ → handlerList A σ)
    (hsort : sort.Sorts handlerList.sortInterface sortSort)
    (xs : List (handlerListItem A σ)) :
    (handlerList.pushAll sortSort xs).Pairwise (fun a b => a.priority ≥ b.priority) := by
  rcases List.eq_nil_or_concat xs with rfl | ⟨init, x, rfl⟩
  · exact List.Pairwise.nil
  · rw [List.concat_eq_append, handlerList_pushAll_concat]
    have hasc := (hsort (handlerList.pushAll sortSort init ++ [x])).2
    rw [handlerList_sortInterface_eq] at hasc ⊢
    refine (ascending_pairwise _ _ hasc).imp ?_
    intro a b hab
    simpa using hab

theorem authenticatorList_insertionSortAll_sorts {A σ : Type} :
    sort.Sorts (authenticatorList.sortInterface : sort.Interface (authenticatorList A σ))
      sort.insertionSortAll := by
  rw [authenticatorList_sortInterface_eq]
  exact insertionSortAll_sorts _
    (priority_lt_asymm (fun i : authenticatorListItem A σ => i.priority))
    (priority_lt_trans (fun i : authenticatorListItem A σ => i.priority))

theorem authenticatorList_shellInsertionSort_sorts {A σ : Type} :
    sort.Sorts (authenticatorList.sortInterface : sort.Interface (authenticatorList A σ))
      sort.shellInsertionSort := by
  rw [authenticatorList_sortInterface_eq]
  exact shellInsertionSort_sorts _
    (priority_lt_asymm (fun i : authenticatorListItem A σ => i.priority))
    (priority_lt_trans (fun i : authenticatorListItem A σ => i.priority))

theorem handlerList_insertionSortAll_sorts {A σ : Type} :
    sort.Sorts (handlerList.sortInterface : sort.Interface (handlerList A σ))
      sort.insertionSortAll := by
  rw [handlerList_sortInterface_eq]
  exact insertionSortAll_sorts _
    (fun a b => priority_lt_asymm (fun i : handlerListItem A σ => i.priority) b a)
    (fun a b c h h' =>
      priority_lt_trans (fun i : handlerListItem A σ => i.priority) c b a h' h)

/-- C3 at the seven authenticators of `sevenAuthenticators`, pushed with the sort
that is `insertionSort(data, 0, n)`. -/
theorem authenticatorList_pushAll_sorted_witness :
    sort.Sorts (authenticatorList.sortInterface : sort.Interface (authenticatorList Unit Unit))
      sort.insertionSortAll ∧
    (authenticatorList.pushAll sort.insertionSortAll sevenAuthenticators).Pairwise
      (fun a b => a.priority ≤ b.priority) :=
  ⟨authenticatorList_insertionSortAll_sorts,
   authenticatorList_pushAll_sorted sort.insertionSortAll
     authenticatorList_insertionSortAll_sorts sevenAuthenticators⟩

/-- C7 at the seven handlers of `sevenHandlers`, pushed with the sort that is
`insertionSort(data, 0, n)`. -/
theorem handlerList_pushAll_sorted_witness :
    sort.Sorts (handlerList.sortInterface : sort.Interface (handlerList Unit Unit))
      sort.insertionSortAll ∧
    (handlerList.pushAll sort.insertionSortAll sevenHandlers).Pairwise
      (fun a b => a.priority ≥ b.priority) :=
  ⟨handlerList_insertionSortAll_sorts,
   handlerList_pushAll_sorted sort.insertionSortAll
     handlerList_insertionSortAll_sorts sevenHandlers⟩

/-! ## Ties in priority -/

/-- The element `x` slides past no element of a class `keep` it belongs to,
when no two elements of the class are less than one another. -/
theorem slideLeft_filter {α : Type} (less : α → α → Bool) (keep : α → Bool)
    (hkeep : ∀ a b, keep a = true → keep b = true → less a b = false) (x : α) :
    ∀ l : List α, (slideLeft less x l).filter keep = (x :: l).filter keep
  | [] => rfl
  | p :: ps => by
    unfold slideLeft
    cases hb : less x p
    · simp
    · have ih := slideLeft_filter less keep hkeep x ps
      simp only [if_true, List.filter_cons, ih]
      cases hx : keep x
      · simp
      · cases hp : keep p
        · simp
        · have := hkeep x p hx hp
          rw [hb] at this
          cases this

theorem foldl_slideLeft_filter {α : Type} (less : α → α → Bool) (keep : α → Bool)
    (hkeep : ∀ a b, keep a = true → keep b = true → less a b = false) :
    ∀ (d acc : List α),
      (d.foldl (fun acc x => slideLeft less x acc) acc).filter keep =
        (d.filter keep).reverse ++ acc.filter keep
  | [], acc => by simp
  | x :: rest, acc => by
    rw [List.foldl_cons, foldl_slideLeft_filter less keep hkeep rest,
      slideLeft_filter less keep hkeep x acc]
    simp only [List.filter_cons]
    cases keep x <;> simp

/-- The sort that is `insertionSort(data, 0, n)` is stable: it keeps the
elements of a class in their order, when no two of them are less than one
another. -/
theorem insertionSortAll_filter {α : Type} (less : α → α → Bool) (keep : α → Bool)
    (hkeep : ∀ a b, keep a = true → keep b = true → less a b = false) (d : List α) :
    (sort.insertionSortAll (listInterface less) d).filter keep = d.filter keep := by
  rw [insertionSortAll_listInterface, List.filter_reverse,
    foldl_slideLeft_filter less keep hkeep d []]
  simp

theorem authenticatorList_insertionSortAll_stable {A σ : Type} (d : authenticatorList A σ)
    (p : Int) :
    (sort.insertionSortAll authenticatorList.sortInterface d).filter
        (fun i => decide (i.priority = p)) =
      d.filter (fun i => decide (i.priority = p)) := by
  rw [authenticatorList_sortInterface_eq]
  apply insertionSortAll_filter
  intro a b ha hb
  simp only [decide_eq_true_eq] at ha hb
  simp [ha, hb]

theorem handlerList_insertionSortAll_stable {A σ : Type} (d : handlerList A σ) (p : Int) :
    (sort.insertionSortAll handlerList.sortInterface d).filter
        (fun i => decide (i.priority = p)) =
      d.filter (fun i => decide (i.priority = p)) := by
  rw [handlerList_sortInterface_eq]
  apply insertionSortAll_filter
  intro a b ha hb
  simp only [decide_eq_true_eq] at ha hb
  simp [ha, hb]

/-- C8, as stated, fails: the sort that is the pass with gap 6 followed by
`insertionSort` keeps the promise of `sort.Sort`, and after the seven `Push`
calls of `sevenAuthenticators` the items of priority 5 are not in the order in
which they were pushed. -/
theorem authenticatorList_pushAll_ties_not_in_push_order :
    ¬ (∀ (sortSort : sort.Interface (authenticatorList Unit Unit) →
          authenticatorList Unit Unit → authenticatorList Unit Unit),
        sort.Sorts authenticatorList.sortInterface sortSort →
        ∀ (xs : List (authenticatorListItem Unit Unit)) (p : Int),
          (authenticatorList.pushAll sortSort xs).filter (fun i => decide (i.priority = p)) =
            xs.filter (fun i => decide (i.priority = p))) := by
  intro h
  have h5 := h sort.shellInsertionSort authenticatorList_shellInsertionSort_sorts
    sevenAuthenticators 5
  have hcodes := congrArg (List.map (fun i => (i.authenticator () ()).1)) h5
  revert hcodes
  decide

/-- C8, amended: when every `sort.Sort` call keeps the items of equal priority
in their order, as an insertion sort does, then after any sequence of `Push`
calls on a new authenticator list, and likewise on a new handler list, the items
of any one priority are in the chain in the order in which they were pushed. -/
theorem pushAll_ties_in_push_order_of_stable {A σ : Type}
    (sortA : sort.Interface (authenticatorList A σ) → authenticatorList A σ →
      authenticatorList A σ)
    (sortH : sort.Interface (handlerList A σ) → handlerList A σ → handlerList A σ)
    (hA : ∀ (d : authenticatorList A σ) (p : Int),
      (sortA authenticatorList.sortInterface d).filter (fun i => decide (i.priority = p)) =
        d.filter (fun i => decide (i.priority = p)))
    (hH : ∀ (d : handlerList A σ) (p : Int),
      (sortH handlerList.sortInterface d).filter (fun i => decide (i.priority = p)) =
        d.filter (fun i => decide (i.priority = p))) :
    (∀ (xs : List (authenticatorListItem A σ)) (p : Int),
      (authenticatorList.pushAll sortA xs).filter (fun i => decide (i.priority = p)) =
        xs.filter (fun i => decide (i.priority = p))) ∧
    (∀ (ys : List (handlerListItem A σ)) (p : Int),
      (handlerList.pushAll sortH ys).filter (fun i => decide (i.priority = p)) =
        ys.filter (fun i => decide (i.priority = p))) := by
  constructor
  · intro xs p
    induction xs using List.reverseRecOn with
    | nil => rfl
    | append_singleton init x ih =>
      rw [authenticatorList_pushAll_concat, hA, List.filter_append, ih, List.filter_append]
  · intro ys p
    induction ys using List.reverseRecOn with
    | nil => rfl
    | append_singleton init y ih =>
      rw [handlerList_pushAll_concat, hH, List.filter_append, ih, List.filter_append]

/-- C8, amended, with the sort that is `insertionSort(data, 0, n)`: the items of
priority 5 of `sevenAuthenticators` and the items of priority 1 of
`sevenHandlers` are in the chain in the order in which they were pushed. -/
theorem pushAll_ties_in_push_order_of_stable_witness :
    (authenticatorList.pushAll sort.insertionSortAll sevenAuthenticators).filter
        (fun i => decide (i.priority = 5)) =
      sevenAuthenticators.filter (fun i => decide (i.priority = 5)) ∧
    (handlerList.pushAll sort.insertionSortAll sevenHandlers).filter
        (fun i => decide (i.priority = 1)) =
      sevenHandlers.filter (fun i => decide (i.priority = 1)) :=
  ⟨(pushAll_ties_in_push_order_of_stable sort.insertionSortAll sort.insertionSortAll
      authenticatorList_insertionSortAll_stable handlerList_insertionSortAll_stable).1
      sevenAuthenticators 5,
   (pushAll_ties_in_push_order_of_stable sort.insertionSortAll sort.insertionSortAll
      authenticatorList_insertionSortAll_stable handlerList_insertionSortAll_stable).2
      sevenHandlers 1⟩

/-! ## Server.Bind -/

/-- C9: on a server that is not running, `Bind` with a method name that is not
in the table returns nil, binds the name to the handler and leaves every other
entry as it was; a second `Bind` with the same name, whatever the handler,
returns `DuplicateMethod` and leaves the server as it was, the first handler
still bound. -/
theorem Server_Bind_fresh_then_duplicate {H : Type} (s : Server H) (method : String)
    (handler : H) (hrunning : s.running = false) (hfresh : s.ep method = none) :
    (s.Bind method handler).1 = none ∧
    (s.Bind method handler).2.ep method = some handler ∧
    (∀ m, m ≠ method → (s.Bind method handler).2.ep m = s.ep m) ∧
    (∀ handler' : H,
      ((s.Bind method handler).2.Bind method handler').1 = some BindError.DuplicateMethod ∧
      ((s.Bind method handler).2.Bind method handler').2 = (s.Bind method handler).2 ∧
      ((s.Bind method handler).2.Bind method handler').2.ep method = some handler) := by
  have hbind : s.Bind method handler = (none, { s with ep := s.ep.set method handler }) := by
    simp [Server.Bind, hrunning, hfresh]
  have hset : (s.ep.set method handler) method = some handler := by
    simp [endpoint.set]
  rw [hbind]
  refine ⟨rfl, hset, ?_, ?_⟩
  · intro m hm
    simp [endpoint.set, hm]
  · intro handler'
    have hagain : Server.Bind { s with ep := s.ep.set method handler } method handler' =
        (some BindError.DuplicateMethod, { s with ep := s.ep.set method handler }) := by
      simp [Server.Bind, hrunning, hset]
    rw [hagain]
    exact ⟨rfl, rfl, hset⟩

/-- C9 at the server of `NewServer` and the method name `echo`. -/
theorem Server_Bind_fresh_then_duplicate_witness :
    ((NewServer 1 2).Bind "echo" 3).1 = none ∧
    ((NewServer 1 2).Bind "echo" 3).2.ep "echo" = some 3 ∧
    (((NewServer 1 2).Bind "echo" 3).2.Bind "echo" 4).1 = some BindError.DuplicateMethod ∧
    (((NewServer 1 2).Bind "echo" 3).2.Bind "echo" 4).2.ep "echo" = some 3 :=
  have h := Server_Bind_fresh_then_duplicate (NewServer (1 : Nat) 2) "echo" 3 rfl (by decide)
  ⟨h.1, h.2.1, (h.2.2.2 4).1, (h.2.2.2 4).2.2⟩

/-- The events of C10, from `NewServer` on: `Start()` takes effect, `Destroy`
sends on `stop` and closes the listener, and the accept loop receives from
`stop`. -/
theorem Server_run_startThenDestroy :
    ((NewServer (1 : Nat) 2).run startThenDestroy).map
        (fun s => (s.once, s.running, (s.Bind "echo" 3).1, (s.Bind "echo" 3).2.ep "echo")) =
      some (true, false, none, some 3) := by
  decide

/-- C10, as stated, fails: after `Start` has taken effect and `Destroy` has
stopped the accept loop, `Bind` with a fresh name returns nil and changes the
table. -/
theorem Server_Bind_after_Destroy_not_rejected :
    ¬ (∀ (es : List (Event Nat)) (s : Server Nat),
        (NewServer 1 2).run es = some s → s.once = true →
        ∀ (method : String) (handler : Nat),
          s.Bind method handler = (some BindError.ServerAlreadyStarted, s)) := by
  intro h
  cases hrun : (NewServer (1 : Nat) 2).run startThenDestroy with
  | none =>
    have := Server_run_startThenDestroy
    rw [hrun] at this
    cases this
  | some s =>
    have hfacts := Server_run_startThenDestroy
    rw [hrun] at hfacts
    simp only [Option.map_some', Option.some.injEq, Prod.mk.injEq] at hfacts
    have hbind := h startThenDestroy s hrun hfacts.1 "echo" 3
    rw [hbind] at hfacts
    cases hfacts.2.2.1

/-- While no `s.stop <- 1` has happened, nothing waits in the channel `stop`
and a server whose `sync.Once` has fired is running. -/
theorem Server_step_running {H : Type} (s s' : Server H) (e : Event H)
    (hstep : s.step e = some s') (he : e.isDestroySend = false)
    (hinv : s.stop = 0 ∧ (s.once = true → s.running = true)) :
    s'.stop = 0 ∧ (s'.once = true → s'.running = true) := by
  obtain ⟨hstop, hrunning⟩ := hinv
  cases e with
  | Start =>
    simp only [Server.step, Server.Start, Option.some.injEq] at hstep
    subst hstep
    exact ⟨hstop, hrunning⟩
  | onceDo =>
    simp only [Server.step] at hstep
    split at hstep
    · cases hstep
    · split at hstep
      · simp only [Option.some.injEq] at hstep
        subst hstep
        exact ⟨hstop, hrunning⟩
      · simp only [Option.some.injEq] at hstep
        subst hstep
        exact ⟨hstop, fun _ => rfl⟩
  | loopTest =>
    simp only [Server.step] at hstep
    split at hstep
    · cases hstep
    · split at hstep
      · next hrun =>
        split at hstep
        · next hpos => omega
        · simp only [Option.some.injEq] at hstep
          subst hstep
          exact ⟨hstop, hrunning⟩
      · simp only [Option.some.injEq] at hstep
        subst hstep
        exact ⟨hstop, hrunning⟩
  | acceptReturn ok =>
    simp only [Server.step] at hstep
    split at hstep
    · cases hstep
    · split at hstep
      · split at hstep
        · cases hstep
        · simp only [Option.some.injEq] at hstep
          subst hstep
          exact ⟨hstop, hrunning⟩
      · simp only [Option.some.injEq] at hstep
        subst hstep
        exact ⟨hstop, hrunning⟩
  | wgAdd =>
    simp only [Server.step] at hstep
    split at hstep
    · cases hstep
    · simp only [Option.some.injEq] at hstep
      subst hstep
      exact ⟨hstop, hrunning⟩
  | spawn =>
    simp only [Server.step] at hstep
    split at hstep
    · cases hstep
    · simp only [Option.some.injEq] at hstep
      subst hstep
      exact ⟨hstop, hrunning⟩
  | connDone =>
    simp only [Server.step] at hstep
    split at hstep
    · cases hstep
    · simp only [Option.some.injEq] at hstep
      subst hstep
      exact ⟨hstop, hrunning⟩
  | destroySend => cases he
  | destroyClose =>
    simp only [Server.step] at hstep
    split at hstep
    · simp only [Option.some.injEq] at hstep
      subst hstep
      exact ⟨hstop, hrunning⟩
    · cases hstep
  | destroyWait =>
    simp only [Server.step] at hstep
    split at hstep
    · simp only [Option.some.injEq] at hstep
      subst hstep
      exact ⟨hstop, hrunning⟩
    · cases hstep
  | Bind method handler =>
    simp only [Server.step, Option.some.injEq] at hstep
    subst hstep
    unfold Server.Bind
    split
    · exact ⟨hstop, hrunning⟩
    · split
      · exact ⟨hstop, hrunning⟩
      · exact ⟨hstop, hrunning⟩

theorem Server_run_running {H : Type} :
    ∀ (es : List (Event H)) (s s' : Server H), s.run es = some s' →
      (∀ e ∈ es, e.isDestroySend = false) →
      (s.stop = 0 ∧ (s.once = true → s.running = true)) →
      s'.stop = 0 ∧ (s'.once = true → s'.running = true)
  | [], s, s', hrun, _, hinv => by
    simp only [Server.run, Option.some.injEq] at hrun
    subst hrun
    exact hinv
  | e :: es, s, s', hrun, hes, hinv => by
    simp only [Server.run] at hrun
    cases hstep : s.step e with
    | none => simp [hstep] at hrun
    | some s1 =>
      rw [hstep, Option.some_bind] at hrun
      exact Server_run_running es s1 s' hrun
        (fun e' he' => hes e' (List.mem_cons_of_mem _ he'))
        (Server_step_running s s1 e hstep (hes e (List.mem_cons_self _ _)) hinv)

/-- C10, amended: on a server of `NewServer`, once `Start` has taken effect and
as long as `Destroy` has not sent on `stop`, every `Bind` call returns
`ServerAlreadyStarted` and leaves the server as it was, for every method name,
fresh or already bound. -/
theorem Server_Bind_rejected_while_running {H : Type} (handleHandshakeHello handleHeartbeat : H)
    (es : List (Event H)) (s : Server H)
    (hrun : (NewServer handleHandshakeHello handleHeartbeat).run es = some s)
    (hstarted : s.once = true) (hnosend : ∀ e ∈ es, e.isDestroySend = false)
    (method : String) (handler : H) :
    s.Bind method handler = (some BindError.ServerAlreadyStarted, s) := by
  have hinv := Server_run_running es _ s hrun hnosend
    ⟨rfl, fun h => by simp [NewServer, Server.bind] at h⟩
  simp [Server.Bind, hinv.2 hstarted]

/-- C10, amended, at the events of `startedTwice`: `Bind` returns
`ServerAlreadyStarted` for the fresh name `echo` and for the bound name
`handshake.hello`. -/
theorem Server_Bind_rejected_while_running_witness :
    ∃ s : Server Nat,
      (NewServer 1 2).run startedTwice = some s ∧
      s.once = true ∧
      (∀ e ∈ startedTwice, e.isDestroySend = false) ∧
      s.Bind "echo" 3 = (some BindError.ServerAlreadyStarted, s) ∧
      s.Bind "handshake.hello" 3 = (some BindError.ServerAlreadyStarted, s) :=
  ⟨_, rfl, rfl, by decide,
    Server_Bind_rejected_while_running 1 2 startedTwice _ rfl rfl (by decide) "echo" 3,
    Server_Bind_rejected_while_running 1 2 startedTwice _ rfl rfl (by decide)
      "handshake.hello" 3⟩

/-! ## Push adds the pushed item and nothing else -/

/-- C19: with a `sort.Sort` that keeps the promise of its documentation, the
list after `Push(x)` is a permutation of the list before followed by `x`, and is
one item longer, on an authenticator list and on a handler list alike. -/
theorem Push_perm_append {A σ : Type}
    (sortA : sort.Interface (authenticatorList A σ) → authenticatorList A σ →
      authenticatorList A σ)
    (sortH : sort.Interface (handlerList A σ) → handlerList A σ → handlerList A σ)
    (hA : sort.Sorts authenticatorList.sortInterface sortA)
    (hH : sort.Sorts handlerList.sortInterface sortH) :
    (∀ (l : authenticatorList A σ) (x : authenticatorListItem A σ),
      (authenticatorList.Push sortA l x).Perm (l ++ [x]) ∧
      (authenticatorList.Push sortA l x).length = l.length + 1) ∧
    (∀ (l : handlerList A σ) (x : handlerListItem A σ),
      (handlerList.Push sortH l x).Perm (l ++ [x]) ∧
      (handlerList.Push sortH l x).length = l.length + 1) := by
  constructor
  · intro l x
    have hperm : (authenticatorList.Push sortA l x).Perm (l ++ [x]) :=
      @sort_Swaps_perm _ authenticatorList.sortInterface rfl _ _ (hA (l ++ [x])).1
    exact ⟨hperm, by simpa using hperm.length_eq⟩
  · intro l x
    have hperm : (handlerList.Push sortH l x).Perm (l ++ [x]) :=
      @sort_Swaps_perm _ handlerList.sortInterface rfl _ _ (hH (l ++ [x])).1
    exact ⟨hperm, by simpa using hperm.length_eq⟩

/-- C19 with the sort that is `insertionSort(data, 0, n)`, at the list of the
first six items of `sevenAuthenticators`, and of `sevenHandlers`, and the
seventh item pushed. -/
theorem Push_perm_append_witness :
    (authenticatorList.Push sort.insertionSortAll (sevenAuthenticators.take 6)
        (constructAuthenticatorListItem (constCapability 16) 1)).length = 7 ∧
    (handlerList.Push sort.insertionSortAll (sevenHandlers.take 6)
        (constructHandlerListItem (constCapability 16) 5)).length = 7 :=
  ⟨((Push_perm_append sort.insertionSortAll sort.insertionSortAll
      authenticatorList_insertionSortAll_sorts handlerList_insertionSortAll_sorts).1
      (sevenAuthenticators.take 6) (constructAuthenticatorListItem (constCapability 16) 1)).2,
   ((Push_perm_append sort.insertionSortAll sort.insertionSortAll
      authenticatorList_insertionSortAll_sorts handlerList_insertionSortAll_sorts).2
      (sevenHandlers.take 6) (constructHandlerListItem (constCapability 16) 5)).2⟩

/-! ## The built-in entries of the method table -/

/-- `Bind` leaves every entry of the table as it is: a name that is bound stays
bound to the same handler. -/
theorem Server_Bind_keeps_entries {H : Type} (s : Server H) (method : String) (handler : H)
    (m : String) (h : H) (hm : s.ep m = some h) : (s.Bind method handler).2.ep m = some h := by
  unfold Server.Bind
  split
  · exact hm
  · split
    · exact hm
    · next _ hfresh =>
      have hne : m ≠ method := by
        rintro rfl
        simp [hm] at hfresh
      simp [endpoint.set, hne, hm]

/-- A sequence of `Bind` calls leaves every bound name bound to the handler it
had, and the flag `running` as it was. -/
theorem Server_bindAll_keeps_entries {H : Type} :
    ∀ (binds : List (String × H)) (s : Server H) (m : String) (h : H), s.ep m = some h →
      (Server.bindAll s binds).ep m = some h ∧
      (Server.bindAll s binds).running = s.running
  | [], _, _, _, hm => ⟨hm, rfl⟩
  | b :: binds, s, m, h, hm => by
    have ih := Server_bindAll_keeps_entries binds (s.Bind b.1 b.2).2 m h
      (Server_Bind_keeps_entries s b.1 b.2 m h hm)
    have hrun : (s.Bind b.1 b.2).2.running = s.running := by
      unfold Server.Bind
      split
      · rfl
      · split <;> rfl
    exact ⟨ih.1, ih.2.trans hrun⟩

/-- C11: on the server of `NewServer` the table holds `handshake.hello` and
`heartbeat.post`; after any sequence of `Bind` calls on it both names are still
bound to the built-in handlers and `Bind` with either name returns
`DuplicateMethod`; and a `Bind` call on any server leaves every bound name bound
to the handler it had. -/
theorem NewServer_builtin_entries_kept {H : Type} (handleHandshakeHello handleHeartbeat : H) :
    (NewServer handleHandshakeHello handleHeartbeat).ep "handshake.hello" =
      some handleHandshakeHello ∧
    (NewServer handleHandshakeHello handleHeartbeat).ep "heartbeat.post" =
      some handleHeartbeat ∧
    (∀ (binds : List (String × H)) (handler : H),
      (Server.bindAll (NewServer handleHandshakeHello handleHeartbeat) binds).ep
          "handshake.hello" = some handleHandshakeHello ∧
      (Server.bindAll (NewServer handleHandshakeHello handleHeartbeat) binds).ep
          "heartbeat.post" = some handleHeartbeat ∧
      ((Server.bindAll (NewServer handleHandshakeHello handleHeartbeat) binds).Bind
          "handshake.hello" handler).1 = some BindError.DuplicateMethod ∧
      ((Server.bindAll (NewServer handleHandshakeHello handleHeartbeat) binds).Bind
          "heartbeat.post" handler).1 = some BindError.DuplicateMethod) ∧
    (∀ (s : Server H) (method : String) (handler : H) (m : String) (h : H),
      s.ep m = some h → (s.Bind method handler).2.ep m = some h) := by
  have hhello : (NewServer handleHandshakeHello handleHeartbeat).ep "handshake.hello" =
      some handleHandshakeHello := by
    simp [NewServer, Server.bind, endpoint.set]
  have hbeat : (NewServer handleHandshakeHello handleHeartbeat).ep "heartbeat.post" =
      some handleHeartbeat := by
    simp [NewServer, Server.bind, endpoint.set]
  refine ⟨hhello, hbeat, ?_, Server_Bind_keeps_entries⟩
  intro binds handler
  have h1 := Server_bindAll_keeps_entries binds _ _ _ hhello
  have h2 := Server_bindAll_keeps_entries binds _ _ _ hbeat
  have hrun : (Server.bindAll (NewServer handleHandshakeHello handleHeartbeat) binds).running =
      false := h1.2
  refine ⟨h1.1, h2.1, ?_, ?_⟩
  · simp [Server.Bind, hrun, h1.1]
  · simp [Server.Bind, hrun, h2.1]

/-! ## bufio.Reader -/

theorem PROXY_no_newline : (10 : Nat) ∉ PROXY := by decide

/-- `ReadSlice` on a line that fits the buffer consumes the line and its
delimiter and nothing more. -/
theorem ReadSlice_line (line rest : List Nat) (delim : Nat) (hline : delim ∉ line)
    (hfit : line.length + 1 ≤ bufio.defaultBufSize) :
    bufio.Reader.ReadSlice { unread := line ++ delim :: rest } delim =
      ((line ++ [delim], false), { unread := rest }) := by
  have htw : ∀ tail : List Nat,
      (line ++ delim :: tail).takeWhile (fun c => c != delim) = line := by
    intro tail
    rw [List.takeWhile_append_of_pos]
    · simp
    · intro c hc
      have : c ≠ delim := fun h => hline (h ▸ hc)
      simpa using this
  have hwin : (line ++ delim :: rest).take bufio.defaultBufSize =
      line ++ delim :: rest.take (bufio.defaultBufSize - (line.length + 1)) := by
    rw [List.take_append_eq_append_take, List.take_of_length_le (by omega)]
    congr 1
    have : bufio.defaultBufSize - line.length =
        (bufio.defaultBufSize - (line.length + 1)) + 1 := by omega
    rw [this, List.take_succ_cons]
  unfold bufio.Reader.ReadSlice
  simp only [hwin, htw]
  rw [if_pos (by simp)]
  simp [List.take_append_eq_append_take, List.drop_append_eq_append_drop]

/-- `ReadSlice` on a full buffer without the delimiter consumes the buffer and
stops there. -/
theorem ReadSlice_full (window rest : List Nat) (delim : Nat) (hwindow : delim ∉ window)
    (hfull : window.length = bufio.defaultBufSize) :
    (bufio.Reader.ReadSlice { unread := window ++ rest } delim).2 = { unread := rest } := by
  have hwin : (window ++ rest).take bufio.defaultBufSize = window := by
    rw [← hfull, List.take_left']
    rfl
  have htw : window.takeWhile (fun c => c != delim) = window := by
    rw [List.takeWhile_eq_self_iff]
    intro c hc
    have : c ≠ delim := fun h => hwindow (h ▸ hc)
    simpa using this
  unfold bufio.Reader.ReadSlice
  simp only [hwin, htw, lt_self_iff_false, if_false]
  rw [List.drop_left']
  rfl

theorem Peek_six_PROXY (tail : List Nat) :
    bufio.Reader.Peek { unread := PROXY ++ tail } 6 = (PROXY, false) := by
  simp [bufio.Reader.Peek, bufio.defaultBufSize, PROXY]

/-- `consumePROXY` on a stream that begins with `PROXY ` is `ReadSlice` of the
newline. -/
theorem consumePROXY_of_PROXY (tail : List Nat) :
    Server.consumePROXY { unread := PROXY ++ tail } =
      (false, (bufio.Reader.ReadSlice { unread := PROXY ++ tail } 10).2) := by
  simp [Server.consumePROXY, Peek_six_PROXY]

/-- `consumePROXY` on a stream whose first six bytes are not `PROXY ` leaves the
reader as it is. -/
theorem consumePROXY_of_not_PROXY (stream : List Nat) (h : stream.take 6 ≠ PROXY) :
    (Server.consumePROXY { unread := stream }).2 = { unread := stream } := by
  by_cases hlen : stream.length < 6
  · have hpeek : bufio.Reader.Peek { unread := stream } 6 = (stream, true) := by
      simp [bufio.Reader.Peek, bufio.defaultBufSize, hlen]
    simp [Server.consumePROXY, hpeek]
  · have hpeek : bufio.Reader.Peek { unread := stream } 6 = (stream.take 6, false) := by
      simp [bufio.Reader.Peek, bufio.defaultBufSize, hlen]
    simp [Server.consumePROXY, hpeek, h]

/-! ## Server.consumePROXY -/

/-- On a line of 4098 bytes, `PROXY `, 4091 bytes `a` and the newline,
`consumePROXY` consumes 4096 bytes: the last `a` and the newline stay unread. -/
theorem consumePROXY_longLine (rest : List Nat) :
    Server.consumePROXY { unread := PROXY ++ List.replicate 4091 97 ++ 10 :: rest } =
      (false, { unread := 97 :: 10 :: rest }) := by
  have hsplit : PROXY ++ List.replicate 4091 97 ++ 10 :: rest =
      (PROXY ++ List.replicate 4090 97) ++ 97 :: 10 :: rest := by
    rw [show (4091 : Nat) = 4090 + 1 from rfl, List.replicate_succ']
    simp only [List.append_assoc, List.cons_append, List.nil_append]
  have hwindow : (10 : Nat) ∉ PROXY ++ List.replicate 4090 97 := by
    intro hmem
    rcases List.mem_append.1 hmem with hmem | hmem
    · exact PROXY_no_newline hmem
    · exact absurd (List.eq_of_mem_replicate hmem) (by decide)
  have hfull : (PROXY ++ List.replicate 4090 97).length = bufio.defaultBufSize := by
    rw [List.length_append, List.length_replicate]
    rfl
  have hread := ReadSlice_full (PROXY ++ List.replicate 4090 97) (97 :: 10 :: rest) 10
    hwindow hfull
  rw [hsplit, List.append_assoc, consumePROXY_of_PROXY, ← List.append_assoc, hread]

/-- On a line that fits the buffer, `consumePROXY` consumes the line and its
newline and nothing more. -/
theorem consumePROXY_line (filler rest : List Nat) (hfiller : 10 ∉ filler)
    (hfit : filler.length + 7 ≤ bufio.defaultBufSize) :
    Server.consumePROXY { unread := PROXY ++ filler ++ 10 :: rest } =
      (false, { unread := rest }) := by
  have hline : (10 : Nat) ∉ PROXY ++ filler := by
    rw [List.mem_append]
    rintro (h | h)
    · exact PROXY_no_newline h
    · exact hfiller h
  rw [List.append_assoc, consumePROXY_of_PROXY, ← List.append_assoc,
    ReadSlice_line (PROXY ++ filler) rest 10 hline (by simp [PROXY] at hfit ⊢; omega)]

/-- C12, as stated, fails: on a line of 4098 bytes, `PROXY `, 4091 bytes `a` and
the newline, `consumePROXY` consumes 4096 bytes and leaves the last `a` and the
newline unread. -/
theorem consumePROXY_long_line_left_unread :
    ¬ (∀ filler rest : List Nat, 10 ∉ filler →
        Server.consumePROXY { unread := PROXY ++ filler ++ 10 :: rest } =
          (false, { unread := rest })) := by
  intro h
  have hfiller : (10 : Nat) ∉ List.replicate 4091 97 :=
    fun hmem => absurd (List.eq_of_mem_replicate hmem) (by decide)
  have hclaim := h (List.replicate 4091 97) [] hfiller
  rw [consumePROXY_longLine] at hclaim
  exact absurd (congrArg (fun r => r.2.unread.length) hclaim) (by decide)

/-- C12, amended: on a stream that begins with `PROXY `, `consumePROXY`
consumes the line up to and including the next newline and nothing after it when
the line, newline included, is at most 4096 bytes long, and exactly the first
4096 bytes when it is longer; on a stream whose first six bytes are anything
else it consumes nothing. -/
theorem consumePROXY_line_within_buffer (filler rest : List Nat) (hfiller : 10 ∉ filler) :
    (filler.length + 7 ≤ bufio.defaultBufSize →
      Server.consumePROXY { unread := PROXY ++ filler ++ 10 :: rest } =
        (false, { unread := rest })) ∧
    (bufio.defaultBufSize < filler.length + 7 →
      Server.consumePROXY { unread := PROXY ++ filler ++ 10 :: rest } =
        (false, { unread := (PROXY ++ filler ++ 10 :: rest).drop bufio.defaultBufSize })) ∧
    (∀ stream : List Nat, stream.take 6 ≠ PROXY →
      (Server.consumePROXY { unread := stream }).2 = { unread := stream }) := by
  have hline : (10 : Nat) ∉ PROXY ++ filler := by
    rw [List.mem_append]
    rintro (h | h)
    · exact PROXY_no_newline h
    · exact hfiller h
  refine ⟨?_, ?_, consumePROXY_of_not_PROXY⟩
  · exact consumePROXY_line filler rest hfiller
  · intro hlong
    have hlen : bufio.defaultBufSize ≤ (PROXY ++ filler).length := by
      simp [PROXY] at hlong ⊢; omega
    have hsplit : PROXY ++ filler ++ 10 :: rest =
        (PROXY ++ filler).take bufio.defaultBufSize ++
          ((PROXY ++ filler).drop bufio.defaultBufSize ++ 10 :: rest) := by
      rw [← List.append_assoc, List.take_append_drop]
    have hdrop : (PROXY ++ filler ++ 10 :: rest).drop bufio.defaultBufSize =
        (PROXY ++ filler).drop bufio.defaultBufSize ++ 10 :: rest := by
      rw [List.drop_append_of_le_length hlen]
    have hread := ReadSlice_full ((PROXY ++ filler).take bufio.defaultBufSize)
      ((PROXY ++ filler).drop bufio.defaultBufSize ++ 10 :: rest) 10
      (fun h => hline (List.mem_of_mem_take h))
      (by rw [List.length_take]; omega)
    rw [← hsplit] at hread
    rw [List.append_assoc, consumePROXY_of_PROXY, ← List.append_assoc, hread, hdrop]

/-- C12, amended, at the line `PROXY x` with its newline, followed by an
opening brace. -/
theorem consumePROXY_line_within_buffer_witness :
    (10 : Nat) ∉ [120] ∧
    Server.consumePROXY { unread := PROXY ++ [120] ++ 10 :: [123] } =
      (false, { unread := [123] }) :=
  ⟨by decide, (consumePROXY_line_within_buffer [120] [123] (by decide)).1 (by decide)⟩

/-! ## Server.serveConn -/

theorem Peek_sixteen_cons (c : Nat) (rest : List Nat) :
    ∃ tail, (bufio.Reader.Peek { unread := c :: rest } 16).1 = c :: tail := by
  unfold bufio.Reader.Peek
  simp only [bufio.defaultBufSize]
  split
  · omega
  · split
    · exact ⟨rest, rfl⟩
    · exact ⟨rest.take 15, rfl⟩

/-- With fuel above the number of unread bytes the loop of `serveConn` ends, as
`skipSpaces` tells. -/
theorem skipLoop_eq_skipSpaces :
    ∀ (unread : List Nat) (fuel : Nat), unread.length < fuel →
      Server.serveConn.skipLoop fuel { unread := unread }
          (bufio.Reader.Peek { unread := unread } 16).1
          (bufio.Reader.Peek { unread := unread } 16).2 =
        some (skipSpaces unread)
  | _, 0, h => by omega
  | [], fuel + 1, _ => by
    simp [Server.serveConn.skipLoop, bufio.Reader.Peek, bufio.defaultBufSize, skipSpaces]
  | c :: rest, fuel + 1, h => by
    obtain ⟨tail, htail⟩ := Peek_sixteen_cons c rest
    have ih := skipLoop_eq_skipSpaces rest fuel (by simpa using h)
    unfold Server.serveConn.skipLoop skipSpaces
    rw [htail]
    cases hc : isSpaceByte c
    · simp [htail, hc]
    · simpa [bufio.Reader.ReadByte, hc] using ih

theorem skipSpaces_append (ws : List Nat) (b : Nat) (rest : List Nat)
    (hws : ∀ c ∈ ws, isSpaceByte c = true) (hb : isSpaceByte b = false) :
    skipSpaces (ws ++ b :: rest) =
      SkipResult.exit { unread := b :: rest }
        (bufio.Reader.Peek { unread := b :: rest } 16).1
        (bufio.Reader.Peek { unread := b :: rest } 16).2 := by
  induction ws with
  | nil => simp [skipSpaces, hb]
  | cons c ws ih =>
    have hc := hws c (List.mem_cons_self _ _)
    simp only [List.cons_append, skipSpaces, hc, if_true]
    exact ih (fun d hd => hws d (List.mem_cons_of_mem _ hd))

theorem skipSpaces_all_space (ws : List Nat) (hws : ∀ c ∈ ws, isSpaceByte c = true) :
    skipSpaces ws = SkipResult.panicked := by
  induction ws with
  | nil => rfl
  | cons c ws ih =>
    have hc := hws c (List.mem_cons_self _ _)
    simp only [skipSpaces, hc, if_true]
    exact ih (fun d hd => hws d (List.mem_cons_of_mem _ hd))

/-- `serveConn` with its loop read off the unread bytes. -/
theorem serveConn_eq (conn : List Nat) :
    Server.serveConn conn =
      if (Server.consumePROXY { unread := conn }).1 then some ConnOutcome.aborted
      else
        match skipSpaces (Server.consumePROXY { unread := conn }).2.unread with
        | SkipResult.panicked => some ConnOutcome.panicked
        | SkipResult.exit reader first err =>
          if err then some ConnOutcome.aborted
          else
            match first with
            | [] => some ConnOutcome.panicked
            | c :: _ =>
              if c = 123 then some (ConnOutcome.served reader)
              else some (ConnOutcome.logged first) := by
  unfold Server.serveConn bufio.NewReader
  simp only
  rw [skipLoop_eq_skipSpaces _ _ (Nat.lt_succ_self _)]
  split
  · rfl
  · cases skipSpaces (Server.consumePROXY { unread := conn }).2.unread <;> rfl

/-- The method `serveConn` returns on every finite stream: the fuel of its loop
never runs out. -/
theorem Server_serveConn_returns (conn : List Nat) : ∃ o, Server.serveConn conn = some o := by
  rw [serveConn_eq]
  split
  · exact ⟨_, rfl⟩
  · split
    · exact ⟨_, rfl⟩
    · split
      · exact ⟨_, rfl⟩
      · split
        · exact ⟨_, rfl⟩
        · split <;> exact ⟨_, rfl⟩

/-- What `serveConn` does depends on the stream through what `consumePROXY`
returns only. -/
theorem serveConn_congr (a b : List Nat)
    (h : Server.consumePROXY { unread := a } = Server.consumePROXY { unread := b }) :
    Server.serveConn a = Server.serveConn b := by
  rw [serveConn_eq, serveConn_eq, h]

theorem consumePROXY_not_PROXY_pair (stream : List Nat) (hlen : 6 ≤ stream.length)
    (h : stream.take 6 ≠ PROXY) :
    Server.consumePROXY { unread := stream } = (false, { unread := stream }) := by
  have hpeek : bufio.Reader.Peek { unread := stream } 6 = (stream.take 6, false) := by
    simp [bufio.Reader.Peek, bufio.defaultBufSize, Nat.not_lt.2 hlen]
  simp [Server.consumePROXY, hpeek, h]

/-- C13, as stated, fails.  A payload that itself begins with `PROXY ` loses its
first line when it comes alone and is logged as unrecognised behind a preamble;
behind a preamble line of 4098 bytes a request is logged as unrecognised, and
served when it comes alone; and behind a preamble the empty payload makes
`serveConn` panic, while alone it is aborted. -/
theorem serveConn_preamble_not_transparent :
    Server.serveConn (proxyLineX ++ (proxyLineY ++ echoRequest)) ≠
      Server.serveConn (proxyLineY ++ echoRequest) ∧
    Server.serveConn (PROXY ++ List.replicate 4091 97 ++ 10 :: echoRequest) ≠
      Server.serveConn echoRequest ∧
    Server.serveConn (proxyLineX ++ []) ≠ Server.serveConn [] := by
  refine ⟨by decide, ?_, by decide⟩
  have hlong : Server.serveConn (PROXY ++ List.replicate 4091 97 ++ 10 :: echoRequest) =
      Server.serveConn (97 :: 10 :: echoRequest) := by
    apply serveConn_congr
    rw [consumePROXY_longLine]
    exact (consumePROXY_not_PROXY_pair _ (by decide) (by decide)).symm
  rw [hlong]
  decide

/-- When `consumePROXY` returns no error and leaves nothing unread but space,
carriage return, line feed and horizontal tab bytes, or nothing at all,
`serveConn` panics. -/
theorem serveConn_panics_of_all_space (conn ws : List Nat)
    (hws : ∀ c ∈ ws, isSpaceByte c = true)
    (hproxy : Server.consumePROXY { unread := conn } = (false, { unread := ws })) :
    Server.serveConn conn = some ConnOutcome.panicked := by
  rw [serveConn_eq, hproxy]
  simp only [Bool.false_eq_true, if_false]
  rw [skipSpaces_all_space ws hws]

/-- On fewer than 16 unread bytes that hold a byte the loop does not skip, the
loop of `serveConn` ends at that byte with the error of `Peek(16)` set. -/
theorem skipSpaces_short :
    ∀ p : List Nat, p.length < 16 → (∃ c ∈ p, isSpaceByte c = false) →
      ∃ reader first, skipSpaces p = SkipResult.exit reader first true
  | [], _, h => by
    obtain ⟨c, hc, -⟩ := h
    cases hc
  | c :: rest, hlen, h => by
    cases hc : isSpaceByte c
    · have hlen' : rest.length + 1 < 16 := by simpa using hlen
      have hpeek : bufio.Reader.Peek { unread := c :: rest } 16 = (c :: rest, true) := by
        simp [bufio.Reader.Peek, bufio.defaultBufSize, hlen']
      refine ⟨{ unread := c :: rest }, c :: rest, ?_⟩
      simp [skipSpaces, hc, hpeek]
    · have hrest : ∃ d ∈ rest, isSpaceByte d = false := by
        obtain ⟨d, hd, hdspace⟩ := h
        rcases List.mem_cons.1 hd with rfl | hd
        · rw [hc] at hdspace
          cases hdspace
        · exact ⟨d, hd, hdspace⟩
      obtain ⟨reader, first, hskip⟩ :=
        skipSpaces_short rest (by simp at hlen; omega) hrest
      exact ⟨reader, first, by simp [skipSpaces, hc, hskip]⟩

/-- A stream of fewer than six bytes is aborted: `Peek(6)` returns an error. -/
theorem serveConn_aborted_of_short (p : List Nat) (hlen : p.length < 6) :
    Server.serveConn p = some ConnOutcome.aborted := by
  have hpeek : bufio.Reader.Peek { unread := p } 6 = (p, true) := by
    simp [bufio.Reader.Peek, bufio.defaultBufSize, hlen]
  rw [serveConn_eq]
  simp [Server.consumePROXY, hpeek]

/-- Behind a preamble line, a payload of fewer than six bytes that are all
skipped by the loop, the empty payload included, makes `serveConn` panic, while
alone it is aborted. -/
theorem serveConn_preamble_short_spaces (filler ws : List Nat) (hfiller : 10 ∉ filler)
    (hfit : filler.length + 7 ≤ bufio.defaultBufSize) (hlen : ws.length < 6)
    (hws : ∀ c ∈ ws, isSpaceByte c = true) :
    Server.serveConn (PROXY ++ filler ++ 10 :: ws) = some ConnOutcome.panicked ∧
      Server.serveConn ws = some ConnOutcome.aborted :=
  ⟨serveConn_panics_of_all_space _ ws hws (consumePROXY_line filler ws hfiller hfit),
   serveConn_aborted_of_short ws hlen⟩

/-- C13, amended: for every payload that does not itself begin with `PROXY `
and is not a run of fewer than six space, carriage return, line feed and
horizontal tab bytes (the empty payload is such a run), and every preamble line
of at most 4096 bytes made of `PROXY `, filler bytes without a newline and the
newline, `serveConn` on the line followed by the payload returns, and it reaches
the outcome of `serveConn` on the payload alone, with the same unread bytes. -/
theorem serveConn_preamble_transparent (filler p : List Nat) (hfiller : 10 ∉ filler)
    (hfit : filler.length + 7 ≤ bufio.defaultBufSize)
    (hshort : p.length < 6 → ∃ c ∈ p, isSpaceByte c = false)
    (hp : p.take 6 ≠ PROXY) :
    ∃ o, Server.serveConn (PROXY ++ filler ++ 10 :: p) = some o ∧
      Server.serveConn p = some o := by
  by_cases hlen : 6 ≤ p.length
  · obtain ⟨o, ho⟩ := Server_serveConn_returns p
    refine ⟨o, ?_, ho⟩
    rw [← ho]
    apply serveConn_congr
    rw [consumePROXY_line filler p hfiller hfit, consumePROXY_not_PROXY_pair p hlen hp]
  · have hlt : p.length < 6 := by omega
    refine ⟨ConnOutcome.aborted, ?_, serveConn_aborted_of_short p hlt⟩
    obtain ⟨reader, first, hskip⟩ := skipSpaces_short p (by omega) (hshort hlt)
    rw [serveConn_eq, consumePROXY_line filler p hfiller hfit]
    simp [hskip]

/-- C13, amended, at the preamble `PROXY x`: before the request
`{"method":"echo"}` both streams are served with the request unread, and before
the two bytes `{}` both streams are aborted. -/
theorem serveConn_preamble_transparent_witness :
    (Server.serveConn (PROXY ++ [120] ++ 10 :: echoRequest) =
        some (ConnOutcome.served { unread := echoRequest }) ∧
      Server.serveConn echoRequest = some (ConnOutcome.served { unread := echoRequest })) ∧
    (Server.serveConn (PROXY ++ [120] ++ 10 :: [123, 125]) = some ConnOutcome.aborted ∧
      Server.serveConn [123, 125] = some ConnOutcome.aborted) := by
  obtain ⟨o, hwith, halone⟩ := serveConn_preamble_transparent [120] echoRequest
    (by decide) (by decide) (by decide) (by decide)
  obtain ⟨o', hwith', halone'⟩ := serveConn_preamble_transparent [120] [123, 125]
    (by decide) (by decide) (by decide) (by decide)
  have ho : o = ConnOutcome.served { unread := echoRequest } :=
    Option.some.inj (halone.symm.trans (by decide))
  have ho' : o' = ConnOutcome.aborted :=
    Option.some.inj (halone'.symm.trans (by decide))
  rw [ho] at hwith halone
  rw [ho'] at hwith' halone'
  exact ⟨⟨hwith, halone⟩, ⟨hwith', halone'⟩⟩

/-- C14, as stated, fails: the stream `{"a":1}` begins with the opening brace
and `serveConn` aborts it, because `Peek(16)` finds 7 bytes and returns an
error. -/
theorem serveConn_short_request_aborted :
    ¬ (∀ conn ws rest : List Nat, (∀ c ∈ ws, isSpaceByte c = true) →
        Server.consumePROXY { unread := conn } = (false, { unread := ws ++ 123 :: rest }) →
        Server.serveConn conn = some (ConnOutcome.served { unread := 123 :: rest })) := by
  intro h
  have hclaim := h shortRequest [] [34, 97, 34, 58, 49, 125] (by decide) (by decide)
  revert hclaim
  decide

/-- C14, amended: when what `consumePROXY` leaves unread is a run of space,
carriage return, line feed and horizontal tab bytes, an opening brace and at
least 15 further bytes, `serveConn` hands the reader to the endpoint serve loop
with exactly the run consumed: the first unread byte is the brace. -/
theorem serveConn_serves_brace (conn ws rest : List Nat)
    (hws : ∀ c ∈ ws, isSpaceByte c = true)
    (hproxy : Server.consumePROXY { unread := conn } =
      (false, { unread := ws ++ 123 :: rest }))
    (hrest : 15 ≤ rest.length) :
    Server.serveConn conn = some (ConnOutcome.served { unread := 123 :: rest }) := by
  have hpeek : bufio.Reader.Peek { unread := 123 :: rest } 16 =
      (123 :: rest.take 15, false) := by
    have : ¬ rest.length + 1 < 16 := by omega
    simp [bufio.Reader.Peek, bufio.defaultBufSize, this]
  rw [serveConn_eq, hproxy]
  simp only [Bool.false_eq_true, if_false]
  rw [skipSpaces_append ws 123 rest hws (by decide), hpeek]
  simp

/-- C14, amended, at the stream of three spaces, a tab and the request
`{"method":"heartbeat.post"}`. -/
theorem serveConn_serves_brace_witness :
    Server.serveConn ([32, 32, 32, 9] ++ heartbeatRequest) =
      some (ConnOutcome.served { unread := heartbeatRequest }) :=
  serveConn_serves_brace ([32, 32, 32, 9] ++ heartbeatRequest) [32, 32, 32, 9]
    heartbeatRequest.tail (by decide) (by decide) (by decide)

/-- C15: when the first byte after what `consumePROXY` consumes and after the
run of space, carriage return, line feed and horizontal tab bytes is not the
opening brace, `serveConn` returns without handing the stream to the endpoint
serve loop: it aborts, or it logs the bytes peeked; nothing is written to the
connection. -/
theorem serveConn_rejects_not_brace (conn ws : List Nat) (b : Nat) (rest : List Nat)
    (hws : ∀ c ∈ ws, isSpaceByte c = true) (hb : isSpaceByte b = false) (hbrace : b ≠ 123)
    (hproxy : (Server.consumePROXY { unread := conn }).2 = { unread := ws ++ b :: rest }) :
    Server.serveConn conn = some ConnOutcome.aborted ∨
      ∃ first, Server.serveConn conn = some (ConnOutcome.logged first) := by
  obtain ⟨tail, htail⟩ := Peek_sixteen_cons b rest
  rw [serveConn_eq, hproxy]
  split
  · exact Or.inl rfl
  · simp only [skipSpaces_append ws b rest hws hb, htail]
    split
    · exact Or.inl rfl
    · exact Or.inr ⟨b :: tail, by simp [hbrace]⟩

/-- C15 at the stream of a form feed followed by the request
`{"method":"heartbeat.post"}`: the form feed is not skipped and the stream is
logged, not served. -/
theorem serveConn_rejects_not_brace_witness :
    Server.serveConn (12 :: heartbeatRequest) = some ConnOutcome.aborted ∨
      ∃ first, Server.serveConn (12 :: heartbeatRequest) = some (ConnOutcome.logged first) :=
  serveConn_rejects_not_brace (12 :: heartbeatRequest) [] 12 heartbeatRequest (by decide)
    (by decide) (by decide) (by decide)

/-- C16, on the code: a stream that ends right after the proxy line and a stream
of six spaces make `serveConn` evaluate `first[0]` on an empty `first`, a
run-time panic; the empty stream and a stream of two spaces, shorter than six
bytes, are aborted. -/
theorem serveConn_panics_on_empty_peek :
    Server.serveConn proxyLineX = some ConnOutcome.panicked ∧
    Server.serveConn [32, 32, 32, 32, 32, 32] = some ConnOutcome.panicked ∧
    Server.serveConn [] = some ConnOutcome.aborted ∧
    Server.serveConn [32, 32] = some ConnOutcome.aborted := by
  decide

/-! ## Start and Destroy -/

theorem NewServer_Inv {H : Type} (handleHandshakeHello handleHeartbeat : H) :
    (NewServer handleHandshakeHello handleHeartbeat).Inv := by
  simp [Server.Inv, NewServer, Server.bind]

/-- Every event keeps `Server.Inv`. -/
theorem Server_step_Inv {H : Type} (s s' : Server H) (e : Event H)
    (hstep : s.step e = some s') (hinv : s.Inv) : s'.Inv := by
  obtain ⟨hloops, hidle, hwg⟩ := hinv
  cases e <;> simp only [Server.step, Server.Start, Server.Bind] at hstep
  all_goals (try split_ifs at hstep)
  all_goals (cases hstep)
  all_goals (refine ⟨?_, ?_, ?_⟩ <;> simp only [])
  all_goals (first
    | exact hloops
    | exact hidle
    | exact hwg
    | skip)
  all_goals (first
    | omega
    | (intro honce
       have hl := hidle honce
       simp_all)
    | simp_all)

theorem Server_run_Inv {H : Type} :
    ∀ (es : List (Event H)) (s s' : Server H), s.run es = some s' → s.Inv → s'.Inv
  | [], s, s', hrun, hinv => by
    simp only [Server.run, Option.some.injEq] at hrun
    subst hrun
    exact hinv
  | e :: es, s, s', hrun, hinv => by
    simp only [Server.run] at hrun
    cases hstep : s.step e with
    | none => simp [hstep] at hrun
    | some s1 =>
      rw [hstep, Option.some_bind] at hrun
      exact Server_run_Inv es s1 s' hrun (Server_step_Inv s s1 e hstep hinv)

/-- Once the listener is closed it stays closed and `Accept` returns no further
connection. -/
theorem Server_run_closed {H : Type} :
    ∀ (es : List (Event H)) (s s' : Server H), s.run es = some s' → s.lnClosed = true →
      s'.lnClosed = true ∧ s'.conns = s.conns
  | [], s, s', hrun, hclosed => by
    simp only [Server.run, Option.some.injEq] at hrun
    subst hrun
    exact ⟨hclosed, rfl⟩
  | e :: es, s, s', hrun, hclosed => by
    simp only [Server.run] at hrun
    cases hstep : s.step e with
    | none => simp [hstep] at hrun
    | some s1 =>
      rw [hstep, Option.some_bind] at hrun
      have hone : s1.lnClosed = true ∧ s1.conns = s.conns := by
        cases e <;> simp only [Server.step, Server.Start, Server.Bind] at hstep
        all_goals (try split_ifs at hstep)
        all_goals (cases hstep)
        all_goals (first
          | exact ⟨hclosed, rfl⟩
          | exact ⟨rfl, rfl⟩)
      have ih := Server_run_closed es s1 s' hrun hone.1
      exact ⟨ih.1, ih.2.trans hone.2⟩

/-- C17: whatever the number of `Start` calls on a server of `NewServer`, and
however its goroutines and callers take turns, the body of `once.Do` begins at
most once: at most one accept loop ever runs, and every connection accepted is
accepted by it. -/
theorem Server_Start_at_most_one_loop {H : Type} (handleHandshakeHello handleHeartbeat : H)
    (es : List (Event H)) (s : Server H)
    (hrun : (NewServer handleHandshakeHello handleHeartbeat).run es = some s) :
    s.loops ≤ 1 ∧ (s.loops = 1 ↔ s.once = true) ∧ (0 < s.conns → s.loops = 1) := by
  have hinv := Server_run_Inv es _ s hrun (NewServer_Inv handleHandshakeHello handleHeartbeat)
  have hconns : ∀ (es : List (Event H)) (s s' : Server H), s.run es = some s' →
      (0 < s.conns → s.once = true) → (s.once = false → s.loop = LoopState.idle) →
      (0 < s'.conns → s'.once = true) := by
    intro es
    induction es with
    | nil =>
      intro s s' hrun h _
      simp only [Server.run, Option.some.injEq] at hrun
      subst hrun
      exact h
    | cons e es ih =>
      intro s s' hrun h hidle
      simp only [Server.run] at hrun
      cases hstep : s.step e with
      | none => simp [hstep] at hrun
      | some s1 =>
        rw [hstep, Option.some_bind] at hrun
        have hone : (0 < s1.conns → s1.once = true) ∧
            (s1.once = false → s1.loop = LoopState.idle) := by
          cases e <;> simp only [Server.step, Server.Start, Server.Bind] at hstep
          all_goals (try split_ifs at hstep)
          all_goals (cases hstep)
          all_goals (first
            | exact ⟨h, hidle⟩
            | (refine ⟨fun _ => ?_, fun honce => ?_⟩
               · cases honce' : s.once
                 · have := hidle honce'
                   simp_all
                 · simp_all
               · have := hidle honce
                 simp_all)
            | simp_all)
        exact ih s1 s' hrun hone.1 hone.2
  obtain ⟨hloops, -, -⟩ := hinv
  have hc := hconns es _ s hrun (by simp [NewServer, Server.bind])
    (by simp [NewServer, Server.bind])
  refine ⟨?_, ?_, ?_⟩
  · rw [hloops]; split <;> omega
  · rw [hloops]; cases s.once <;> simp
  · intro hpos
    rw [hloops, hc hpos]
    rfl

/-- C17 at the events of `startedTwice`, with two `Start` calls: one loop has
begun. -/
theorem Server_Start_at_most_one_loop_witness :
    ∃ s : Server Nat,
      (NewServer 1 2).run startedTwice = some s ∧ s.loops = 1 ∧ s.conns = 1 :=
  ⟨_, rfl, ((Server_Start_at_most_one_loop 1 2 startedTwice _ rfl).2.2 (by decide)), rfl⟩

/-- C18: in every state a server of `NewServer` can reach, every `serveConn`
goroutine in flight is counted in the WaitGroup; while one is in flight the
`s.wg.Wait()` of `Destroy` does not return; and once the listener is closed no
further connection is accepted. -/
theorem Server_Destroy_waits_for_tasks {H : Type} (handleHandshakeHello handleHeartbeat : H)
    (es : List (Event H)) (s : Server H)
    (hrun : (NewServer handleHandshakeHello handleHeartbeat).run es = some s) :
    s.tasks ≤ s.wg ∧
    (0 < s.tasks → s.step Event.destroyWait = none) ∧
    (∀ s', s.step Event.destroyWait = some s' → s'.tasks = 0) ∧
    (s.lnClosed = true → ∀ (es' : List (Event H)) (s' : Server H), s.run es' = some s' →
      s'.lnClosed = true ∧ s'.conns = s.conns) := by
  obtain ⟨-, -, hwg⟩ :=
    Server_run_Inv es _ s hrun (NewServer_Inv handleHandshakeHello handleHeartbeat)
  refine ⟨by omega, ?_, ?_, fun hclosed es' s' hrun' => Server_run_closed es' s s' hrun' hclosed⟩
  · intro htasks
    have : ¬ (s.destroy = DestroyState.closed ∧ s.wg = 0) := by
      rintro ⟨-, h0⟩
      omega
    simp [Server.step, this]
  · intro s' hstep
    simp only [Server.step] at hstep
    split_ifs at hstep with h
    cases hstep
    simp only []
    omega

/-- C18 at the events of `destroyWithTaskInFlight`: one connection is in
flight, `Destroy` has sent on `stop` and closed the listener, and its
`s.wg.Wait()` cannot return. -/
theorem Server_Destroy_waits_for_tasks_witness :
    ∃ s : Server Nat,
      (NewServer 1 2).run destroyWithTaskInFlight = some s ∧ s.tasks = 1 ∧
      s.step Event.destroyWait = none :=
  ⟨_, rfl, rfl,
    (Server_Destroy_waits_for_tasks 1 2 destroyWithTaskInFlight _ rfl).2.1 (by decide)⟩

end Endpoint
